import Mathlib

/-!
Shallow embedding of `pyscf/pbc/scf/kuhf.py` (unrestricted Hartree-Fock with
k-point sampling for periodic systems).

Conventions of the embedding:
* numpy complex floating-point scalars are idealized as exact complex
  rationals `CQ`;
* a numpy array of shape `(nkpts, nao, nao)` becomes a
  `List (Matrix (Fin nao) (Fin nao) CQ)` aligned by k-point order;
* a spin axis of length 2 becomes a pair;
* fallible code paths (Python exceptions) return `Except String _`.
-/

/-- Complex numbers with rational components: the idealization of the numpy
complex floating-point scalars used throughout `kuhf.py`. -/
structure CQ where
  re : ℚ
  im : ℚ
deriving DecidableEq

namespace CQ

theorem ext_cq {a b : CQ} (hre : a.re = b.re) (him : a.im = b.im) : a = b := by
  cases a; cases b; simp_all

instance : Zero CQ := ⟨⟨0, 0⟩⟩

instance : One CQ := ⟨⟨1, 0⟩⟩

instance : Add CQ := ⟨fun a b => ⟨a.re + b.re, a.im + b.im⟩⟩

instance : Neg CQ := ⟨fun a => ⟨-a.re, -a.im⟩⟩

instance : Mul CQ := ⟨fun a b => ⟨a.re * b.re - a.im * b.im, a.re * b.im + a.im * b.re⟩⟩

@[simp] theorem zero_re : (0 : CQ).re = 0 := rfl

@[simp] theorem zero_im : (0 : CQ).im = 0 := rfl

@[simp] theorem one_re : (1 : CQ).re = 1 := rfl

@[simp] theorem one_im : (1 : CQ).im = 0 := rfl

@[simp] theorem add_re (a b : CQ) : (a + b).re = a.re + b.re := rfl

@[simp] theorem add_im (a b : CQ) : (a + b).im = a.im + b.im := rfl

@[simp] theorem neg_re (a : CQ) : (-a).re = -a.re := rfl

@[simp] theorem neg_im (a : CQ) : (-a).im = -a.im := rfl

@[simp] theorem mul_re (a b : CQ) : (a * b).re = a.re * b.re - a.im * b.im := rfl

@[simp] theorem mul_im (a b : CQ) : (a * b).im = a.re * b.im + a.im * b.re := rfl

instance : CommRing CQ where
  add := (· + ·)
  zero := 0
  neg := Neg.neg
  mul := (· * ·)
  one := 1
  nsmul := nsmulRec
  zsmul := zsmulRec
  add_assoc a b c := by apply ext_cq <;> simp <;> ring
  zero_add a := by apply ext_cq <;> simp
  add_zero a := by apply ext_cq <;> simp
  add_comm a b := by apply ext_cq <;> simp <;> ring
  left_distrib a b c := by apply ext_cq <;> simp <;> ring
  right_distrib a b c := by apply ext_cq <;> simp <;> ring
  zero_mul a := by apply ext_cq <;> simp
  mul_zero a := by apply ext_cq <;> simp
  mul_assoc a b c := by apply ext_cq <;> simp <;> ring
  one_mul a := by apply ext_cq <;> simp
  mul_one a := by apply ext_cq <;> simp
  neg_add_cancel a := by apply ext_cq <;> simp
  mul_comm a b := by apply ext_cq <;> simp <;> ring

instance : StarRing CQ where
  star a := ⟨a.re, -a.im⟩
  star_involutive a := by apply ext_cq <;> simp
  star_mul a b := by apply ext_cq <;> simp <;> ring
  star_add a b := by apply ext_cq <;> simp <;> ring

@[simp] theorem star_re (a : CQ) : (star a).re = a.re := rfl

@[simp] theorem star_im (a : CQ) : (star a).im = -a.im := rfl

@[simp] theorem sub_re (a b : CQ) : (a - b).re = a.re - b.re := by
  rw [sub_eq_add_neg, add_re, neg_re, sub_eq_add_neg]

@[simp] theorem sub_im (a b : CQ) : (a - b).im = a.im - b.im := by
  rw [sub_eq_add_neg, add_im, neg_im, sub_eq_add_neg]

/-- Embed a real (rational) scalar as a complex scalar. -/
def ofQ (q : ℚ) : CQ := ⟨q, 0⟩

@[simp] theorem ofQ_re (q : ℚ) : (ofQ q).re = q := rfl

@[simp] theorem ofQ_im (q : ℚ) : (ofQ q).im = 0 := rfl

@[simp] theorem star_ofQ (q : ℚ) : star (ofQ q) = ofQ q := by
  apply ext_cq <;> simp

/-- Complex division, `a / b = a * conj b / (re b ^ 2 + im b ^ 2)`:
the idealization of numpy complex division (used by the low-dimensional
electron-count rescaling `nelec / ne`). -/
def div (a b : CQ) : CQ :=
  let d : ℚ := b.re * b.re + b.im * b.im
  ⟨(a.re * b.re + a.im * b.im) / d, (a.im * b.re - a.re * b.im) / d⟩

/-- `|z| > t` for a nonnegative threshold `t`, decided exactly on rationals
as `t^2 < re^2 + im^2`: the idealization of numpy `abs(z) > t` for complex
`z`. -/
def absGt (z : CQ) (t : ℚ) : Prop := t * t < z.re * z.re + z.im * z.im

instance absGtDec (z : CQ) (t : ℚ) : Decidable (absGt z t) := by
  unfold absGt; infer_instance

end CQ

/-! ## Matrix helpers shared by the embedded functions -/

section MatrixHelpers

variable {nao nmo : ℕ}

instance matDecEq (a b : ℕ) : DecidableEq (Matrix (Fin a) (Fin b) CQ) := fun M N =>
  decidable_of_iff (∀ i j, M i j = N i j) Matrix.ext_iff

/-- Elementwise scaling of a matrix by a complex scalar: the idealization of
numpy broadcasting `c * M` / `M *= c`. -/
def mscale (c : CQ) (M : Matrix (Fin nao) (Fin nmo) CQ) : Matrix (Fin nao) (Fin nmo) CQ :=
  Matrix.of fun i j => c * M i j

/-- Elementwise real part of a complex matrix: numpy `M.real` (the imaginary
components are dropped). -/
def mreal (M : Matrix (Fin nao) (Fin nmo) CQ) : Matrix (Fin nao) (Fin nmo) CQ :=
  Matrix.of fun i j => CQ.ofQ (M i j).re

/-- `np.einsum('ij,ji', A, B)`, the trace of the product `A·B`. -/
def einsum_ij_ji (A B : Matrix (Fin nao) (Fin nao) CQ) : CQ :=
  ∑ i, ∑ j, A i j * B j i

theorem einsum_ij_ji_eq_trace (A B : Matrix (Fin nao) (Fin nao) CQ) :
    einsum_ij_ji A B = Matrix.trace (A * B) := by
  simp [einsum_ij_ji, Matrix.trace, Matrix.mul_apply, Matrix.diag]

end MatrixHelpers

/-! ## `make_rdm1` (kuhf.py lines 28-40)

Alpha and beta spin one-particle density matrices for all k-points. -/

section MakeRdm1

variable {nao nmo : ℕ}

/-- numpy broadcasting `mos[k] * occs[k]`: the occupation vector (a real
array of length `nmo`) scales the columns of the `(nao, nmo)` coefficient
matrix. -/
def colScale (M : Matrix (Fin nao) (Fin nmo) CQ) (o : Fin nmo → ℚ) :
    Matrix (Fin nao) (Fin nmo) CQ :=
  Matrix.of fun i j => M i j * CQ.ofQ (o j)

/-- One k-point block of the density matrix:
`np.dot(mos[k] * occs[k], mos[k].T.conj())`. -/
def make_dm_k (C : Matrix (Fin nao) (Fin nmo) CQ) (o : Fin nmo → ℚ) :
    Matrix (Fin nao) (Fin nao) CQ :=
  colScale C o * C.conjTranspose

/-- The inner `make_dm` closure of `make_rdm1`: one spin channel, iterating
`k` over `range nkpts` (out-of-range accesses, an error in Python, default to
the zero array). -/
def make_dm (mos : List (Matrix (Fin nao) (Fin nmo) CQ)) (occs : List (Fin nmo → ℚ))
    (nkpts : ℕ) : List (Matrix (Fin nao) (Fin nao) CQ) :=
  (List.range nkpts).map fun k => make_dm_k (mos.getD k 0) (occs.getD k fun _ => 0)

/-- `make_rdm1(mo_coeff_kpts, mo_occ_kpts)`: the `(2, nkpts, nao, nao)`
density array, with `nkpts = len(mo_occ_kpts[0])`. -/
def make_rdm1
    (mo_coeff_kpts : List (Matrix (Fin nao) (Fin nmo) CQ) × List (Matrix (Fin nao) (Fin nmo) CQ))
    (mo_occ_kpts : List (Fin nmo → ℚ) × List (Fin nmo → ℚ)) :
    List (Matrix (Fin nao) (Fin nao) CQ) × List (Matrix (Fin nao) (Fin nao) CQ) :=
  let nkpts := mo_occ_kpts.1.length
  (make_dm mo_coeff_kpts.1 mo_occ_kpts.1 nkpts, make_dm mo_coeff_kpts.2 mo_occ_kpts.2 nkpts)

/-- Real occupation vector as a complex diagonal matrix `diag(occ)`. -/
def diagQ (o : Fin nmo → ℚ) : Matrix (Fin nmo) (Fin nmo) CQ :=
  Matrix.diagonal fun j => CQ.ofQ (o j)

theorem colScale_eq_mul_diagonal (C : Matrix (Fin nao) (Fin nmo) CQ) (o : Fin nmo → ℚ) :
    colScale C o = C * diagQ o := by
  ext i j
  simp [colScale, diagQ, Matrix.mul_diagonal]

theorem make_dm_k_eq_diag_form (C : Matrix (Fin nao) (Fin nmo) CQ) (o : Fin nmo → ℚ) :
    make_dm_k C o = C * diagQ o * C.conjTranspose := by
  rw [make_dm_k, colScale_eq_mul_diagonal]

theorem make_dm_k_hermitian (C : Matrix (Fin nao) (Fin nmo) CQ) (o : Fin nmo → ℚ) :
    (make_dm_k C o).conjTranspose = make_dm_k C o := by
  rw [make_dm_k_eq_diag_form]
  have hd : (diagQ o).conjTranspose = diagQ o := by
    rw [diagQ, Matrix.diagonal_conjTranspose]
    simp [Function.comp]
  calc (C * diagQ o * C.conjTranspose).conjTranspose
      = C.conjTranspose.conjTranspose * (C * diagQ o).conjTranspose := by
        rw [Matrix.conjTranspose_mul]
    _ = C * ((diagQ o).conjTranspose * C.conjTranspose) := by
        rw [Matrix.conjTranspose_conjTranspose, Matrix.conjTranspose_mul]
    _ = C * diagQ o * C.conjTranspose := by rw [hd, Matrix.mul_assoc]

theorem make_dm_getD (mos : List (Matrix (Fin nao) (Fin nmo) CQ))
    (occs : List (Fin nmo → ℚ)) (nkpts k : ℕ) (hk : k < nkpts) :
    (make_dm mos occs nkpts).getD k 0 =
      make_dm_k (mos.getD k 0) (occs.getD k fun _ => 0) := by
  rw [make_dm]
  rw [List.getD_eq_getElem?_getD, List.getElem?_map, List.getElem?_range hk]
  rfl

end MakeRdm1

/-! ## `get_occ` (kuhf.py lines 66-114)

Occupancies for each orbital for sampled k-points: global Fermi filling per
spin channel across all k-points. -/

/-- Python list indexing with negative-index wraparound, as used by
`mo_energy[nocc-1]` (out-of-range accesses, an `IndexError` in Python,
default to `0`). -/
def pyIdx (l : List ℚ) (i : Int) : ℚ :=
  if i < 0 then l.getD (l.length - (-i).toNat) 0 else l.getD i.toNat 0

/-- One spin channel of `get_occ`: pool all orbital energies across k-points
(`np.hstack`), sort ascending (`np.sort`), read the Fermi level at index
`nocc - 1`, and occupy every orbital with energy `<= fermi` with `1.0`
(`(mo_e <= fermi).astype(np.double)`). -/
def get_occ_spin (nocc : ℕ) (ess : List (List ℚ)) : List (List ℚ) :=
  let mo_energy := List.insertionSort (fun a b => a ≤ b) ess.flatten
  let fermi := pyIdx mo_energy ((nocc : Int) - 1)
  ess.map fun es => es.map fun e => if e ≤ fermi then (1 : ℚ) else 0

/-- `get_occ(mf, mo_energy_kpts)` with `mf.nelec = nelec`; the logging of
HOMO/LUMO diagnostics has no effect on the result and is not modelled.
`nkpts = len(mo_energy_kpts[0])`; the beta channel is filled only when
`nelec[1] > 0`, otherwise it stays the empty list built at line 79. -/
def get_occ (nelec : ℕ × ℕ) (mo_energy_kpts : List (List ℚ) × List (List ℚ)) :
    List (List ℚ) × List (List ℚ) :=
  let nkpts := mo_energy_kpts.1.length
  (get_occ_spin (nelec.1 * nkpts) mo_energy_kpts.1,
   if 0 < nelec.2 then get_occ_spin (nelec.2 * nkpts) mo_energy_kpts.2 else [])

/-! ## `energy_elec` (kuhf.py lines 117-135) -/

section EnergyElec

variable {nao : ℕ}

/-- `np.einsum('kij,kji', A, B)`: sum over the k axis of the traces of the
per-k products. -/
def einsum_kij_kji (nkpts : ℕ) (A B : List (Matrix (Fin nao) (Fin nao) CQ)) : CQ :=
  ∑ k ∈ Finset.range nkpts, einsum_ij_ji (A.getD k 0) (B.getD k 0)

/-- The value `e1` computed at lines 125-126. -/
def e1_val (dm_kpts : List (Matrix (Fin nao) (Fin nao) CQ) × List (Matrix (Fin nao) (Fin nao) CQ))
    (h1e_kpts : List (Matrix (Fin nao) (Fin nao) CQ)) : CQ :=
  let nkpts := h1e_kpts.length
  CQ.ofQ (1 / (nkpts : ℚ)) * einsum_kij_kji nkpts dm_kpts.1 h1e_kpts +
    CQ.ofQ (1 / (nkpts : ℚ)) * einsum_kij_kji nkpts dm_kpts.2 h1e_kpts

/-- The value `e_coul` computed at lines 127-128. -/
def e_coul_val
    (dm_kpts : List (Matrix (Fin nao) (Fin nao) CQ) × List (Matrix (Fin nao) (Fin nao) CQ))
    (h1e_kpts : List (Matrix (Fin nao) (Fin nao) CQ))
    (vhf_kpts : List (Matrix (Fin nao) (Fin nao) CQ) × List (Matrix (Fin nao) (Fin nao) CQ)) :
    CQ :=
  let nkpts := h1e_kpts.length
  CQ.ofQ (1 / (nkpts : ℚ)) * einsum_kij_kji nkpts dm_kpts.1 vhf_kpts.1 * CQ.ofQ (1 / 2) +
    CQ.ofQ (1 / (nkpts : ℚ)) * einsum_kij_kji nkpts dm_kpts.2 vhf_kpts.2 * CQ.ofQ (1 / 2)

/-- `energy_elec(mf, dm_kpts, h1e_kpts, vhf_kpts)`.

The guard at line 129 reads `if abs(e_coul.imag > 1.e-10):` — Python first
evaluates the comparison `e_coul.imag > 1.e-10` to a boolean and then takes
`abs` of that boolean, so the branch is taken exactly when
`e_coul.imag > 1e-10` (a negative imaginary part never raises). The
embedding reproduces that guard as written. -/
def energy_elec
    (dm_kpts : List (Matrix (Fin nao) (Fin nao) CQ) × List (Matrix (Fin nao) (Fin nao) CQ))
    (h1e_kpts : List (Matrix (Fin nao) (Fin nao) CQ))
    (vhf_kpts : List (Matrix (Fin nao) (Fin nao) CQ) × List (Matrix (Fin nao) (Fin nao) CQ)) :
    Except String (ℚ × ℚ) :=
  let e1 := e1_val dm_kpts h1e_kpts
  let e_coul := e_coul_val dm_kpts h1e_kpts vhf_kpts
  if e_coul.im > 1 / 10 ^ 10 then
    Except.error "RuntimeError: Coulomb energy has imaginary part, something is wrong!"
  else
    Except.ok (e1.re + e_coul.re, e_coul.re)

end EnergyElec

/-! ## `get_fock` (kuhf.py lines 42-64) -/

section GetFock

variable {nao : ℕ}

/-- The `level_shift_factor` configuration: the scalar case or the per-spin
`(alpha, beta)` pair case unpacked at lines 51-54. -/
inductive LevelShiftFactor where
  | scalar (x : ℚ)
  | pairLS (a b : ℚ)

/-- Python `abs(level_shift_factor)` as called at line 59: defined for a
scalar, but a `TypeError` for a tuple/list (and a `ValueError` for a numpy
array of size 2, likewise an exception). -/
def pyAbsLS : LevelShiftFactor → Except String ℚ
  | .scalar x => Except.ok |x|
  | .pairLS _ _ => Except.error "TypeError: bad operand type for abs"

/-- The unpacking `shifta, shiftb = level_shift_factor` of lines 51-54. -/
def unpackLS : LevelShiftFactor → ℚ × ℚ
  | .scalar x => (x, x)
  | .pairLS a b => (a, b)

/-- `get_fock(mf, h1e_kpts, s_kpts, vhf_kpts, dm_kpts, ...)` with no DIIS
object supplied (`diis=None`, so the extrapolation branch at lines 57-58 is
skipped). `lvl` is the external collaborator `pyscf.scf.hf.level_shift`
(called as `level_shift(s, dm, f, shift)`); `f = h1e + vhf` broadcasts the
spin-independent `h1e_kpts` over both spin channels, and the level-shift
branch maps over `enumerate(s_kpts)` per spin with that spin channel's own
shift. -/
def get_fock
    (lvl : Matrix (Fin nao) (Fin nao) CQ → Matrix (Fin nao) (Fin nao) CQ →
      Matrix (Fin nao) (Fin nao) CQ → ℚ → Matrix (Fin nao) (Fin nao) CQ)
    (h1e_kpts : List (Matrix (Fin nao) (Fin nao) CQ))
    (s_kpts : List (Matrix (Fin nao) (Fin nao) CQ))
    (vhf_kpts : List (Matrix (Fin nao) (Fin nao) CQ) × List (Matrix (Fin nao) (Fin nao) CQ))
    (dm_kpts : List (Matrix (Fin nao) (Fin nao) CQ) × List (Matrix (Fin nao) (Fin nao) CQ))
    (level_shift_factor : LevelShiftFactor) :
    Except String
      (List (Matrix (Fin nao) (Fin nao) CQ) × List (Matrix (Fin nao) (Fin nao) CQ)) :=
  let shifts := unpackLS level_shift_factor
  let f1 : List (Matrix (Fin nao) (Fin nao) CQ) :=
    (List.range h1e_kpts.length).map fun k => h1e_kpts.getD k 0 + vhf_kpts.1.getD k 0
  let f2 : List (Matrix (Fin nao) (Fin nao) CQ) :=
    (List.range h1e_kpts.length).map fun k => h1e_kpts.getD k 0 + vhf_kpts.2.getD k 0
  match pyAbsLS level_shift_factor with
  | Except.error e => Except.error e
  | Except.ok a =>
    if a > 1 / 10 ^ 4 then
      Except.ok
        ((List.range s_kpts.length).map fun k =>
           lvl (s_kpts.getD k 0) (dm_kpts.1.getD k 0) (f1.getD k 0) shifts.1,
         (List.range s_kpts.length).map fun k =>
           lvl (s_kpts.getD k 0) (dm_kpts.2.getD k 0) (f2.getD k 0) shifts.2)
    else
      Except.ok (f1, f2)

end GetFock

/-! ## `canonicalize` (kuhf.py lines 163-201)

Diagonalize the UHF Fock matrix within occupied and virtual subspaces
separately, without changing occupancy.  The inner helper `eig_` extracts
the orbital block `orb = mo_coeff_kpts[:, idx]` selected by a boolean mask,
diagonalizes `orb^H · fock · orb` with the external routine
`scipy.linalg.eigh`, and writes `cs[:, idx] = orb · c` back.  The
eigenvector matrices returned by the external `scipy.linalg.eigh` are taken
as parameters (`cOcc` for the occupied mask `mo_occ == 1`, `cVir` for its
complement), indexed by the masked column sets. -/

section Canonicalize

variable {nao nmo : ℕ}

/-- The new coefficient matrix `mo1` produced for one spin and k-point by the
two `eig_` calls: column `j` in the occupied mask is `(orb_occ · cOcc)` at
the corresponding masked position, and likewise for the virtual mask. -/
def canonicalize_mo (C : Matrix (Fin nao) (Fin nmo) CQ) (o : Fin nmo → ℚ)
    (cOcc : Matrix {j : Fin nmo // o j = 1} {j : Fin nmo // o j = 1} CQ)
    (cVir : Matrix {j : Fin nmo // ¬o j = 1} {j : Fin nmo // ¬o j = 1} CQ) :
    Matrix (Fin nao) (Fin nmo) CQ :=
  Matrix.of fun i j =>
    if h : o j = 1 then
      ∑ a : {j : Fin nmo // o j = 1}, C i a.1 * cOcc a ⟨j, h⟩
    else
      ∑ a : {j : Fin nmo // ¬o j = 1}, C i a.1 * cVir a ⟨j, h⟩

/-- One spin channel of `canonicalize`: the loop
`for k, mo in enumerate(mo_coeff_kpts[s])`, with the per-k eigenvector
matrices of the external `scipy.linalg.eigh` supplied as families `R`
(occupied block) and `RV` (virtual block). -/
def canonicalize_spin (mos : List (Matrix (Fin nao) (Fin nmo) CQ))
    (occs : List (Fin nmo → ℚ))
    (R : ∀ k : ℕ, Matrix {j : Fin nmo // (occs.getD k fun _ => 0) j = 1}
      {j : Fin nmo // (occs.getD k fun _ => 0) j = 1} CQ)
    (RV : ∀ k : ℕ, Matrix {j : Fin nmo // ¬(occs.getD k fun _ => 0) j = 1}
      {j : Fin nmo // ¬(occs.getD k fun _ => 0) j = 1} CQ) :
    List (Matrix (Fin nao) (Fin nmo) CQ) :=
  (List.range mos.length).map fun k =>
    canonicalize_mo (mos.getD k 0) (occs.getD k fun _ => 0) (R k) (RV k)

end Canonicalize

/-! ## `KUHF.get_init_guess` (kuhf.py lines 291-332) -/

section GetInitGuess

variable {nao : ℕ}

/-- The initial-guess key. The checkpoint key (`'chk...'`) involves file
I/O (`from_chk`) and is outside this embedding; the three non-checkpoint
keys are modelled. -/
inductive InitGuessKey where
  | one_e
  | atom
  | minao

/-- The key dispatch of lines 295-310: `'1e'` takes the 1-electron guess; a
cell with no atoms falls back to the 1-electron guess for any key; `'atom'`
takes the atomic-superposition guess; otherwise the minao guess.  The three
external molecular guess routines (`init_guess_by_1e`,
`init_guess_by_atom`, `init_guess_by_minao`) are supplied as
k-point-independent `(dm_alpha, dm_beta)` pairs. -/
def select_guess (natm : ℕ) (key : InitGuessKey)
    (g1e gatom gminao : Matrix (Fin nao) (Fin nao) CQ × Matrix (Fin nao) (Fin nao) CQ) :
    Matrix (Fin nao) (Fin nao) CQ × Matrix (Fin nao) (Fin nao) CQ :=
  match key with
  | .one_e => g1e
  | .atom => if natm = 0 then g1e else gatom
  | .minao => if natm = 0 then g1e else gminao

/-- Per-spin, per-k electron count `ne = np.einsum('xkij,kji->xk', dm_kpts,
ovlp)`, i.e. `tr(dm[s,k] · S[k])`. -/
def ne_count (dms : List (Matrix (Fin nao) (Fin nao) CQ))
    (ovlp : List (Matrix (Fin nao) (Fin nao) CQ)) (k : ℕ) : CQ :=
  einsum_ij_ji (dms.getD k 0) (ovlp.getD k 0)

/-- `KUHF.get_init_guess(cell, key)` for the non-checkpoint keys.

Lines 312-318: the k-point-independent guess pair is replicated across all
k-points and the alpha (beta) copies are scaled by `1.01` (`0.99`) to break
spin symmetry.  Lines 321-331: for a cell of dimension below 3, if any
per-spin, per-k electron count deviates from `cell.nelec` by more than
`1e-7` in magnitude, the density is rescaled per spin and k-point by
`nelec[s] / ne[s,k]` (with a warning, which is not modelled); otherwise the
density is returned unchanged. -/
def get_init_guess (dimension natm : ℕ) (nelec : ℚ × ℚ) (nkpts : ℕ)
    (ovlp : List (Matrix (Fin nao) (Fin nao) CQ))
    (g1e gatom gminao : Matrix (Fin nao) (Fin nao) CQ × Matrix (Fin nao) (Fin nao) CQ)
    (key : InitGuessKey) :
    List (Matrix (Fin nao) (Fin nao) CQ) × List (Matrix (Fin nao) (Fin nao) CQ) :=
  let dm := select_guess natm key g1e gatom gminao
  let dmA := List.replicate nkpts (mscale (CQ.ofQ (101 / 100)) dm.1)
  let dmB := List.replicate nkpts (mscale (CQ.ofQ (99 / 100)) dm.2)
  if dimension < 3 then
    if ∃ k ∈ List.range nkpts,
        CQ.absGt (ne_count dmA ovlp k - CQ.ofQ nelec.1) (1 / 10 ^ 7) ∨
        CQ.absGt (ne_count dmB ovlp k - CQ.ofQ nelec.2) (1 / 10 ^ 7) then
      ((List.range nkpts).map fun k =>
         mscale (CQ.div (CQ.ofQ nelec.1) (ne_count dmA ovlp k)) (dmA.getD k 0),
       (List.range nkpts).map fun k =>
         mscale (CQ.div (CQ.ofQ nelec.2) (ne_count dmB ovlp k)) (dmB.getD k 0))
    else
      (dmA, dmB)
  else
    (dmA, dmB)

end GetInitGuess

/-! ## `init_guess_by_chkfile` (kuhf.py lines 203-267)

The checkpoint record is modelled as already holding unrestricted (KUHF)
per-k-point orbital and occupation lists together with its k-point array
`chk_kpts` (the `'kpt'`/`'kpts'` record-key normalization and the restricted
KRHF-record branch of lines 215-232 and 257-260 are upstream of the
modelled inputs).  The external projector `addons.project_mo_nr2nr`
(applied per orbital matrix, with `None` or the per-k displacement vector
as its k-point argument) is a parameter `proj`. -/

section ChkGuess

variable {nao nmo : ℕ}

/-- A k-point: a 3-vector of reciprocal-space coordinates. -/
abbrev V3 : Type := ℚ × ℚ × ℚ

/-- Componentwise difference of two k-points. -/
def v3sub (a b : V3) : V3 := (a.1 - b.1, a.2.1 - b.2.1, a.2.2 - b.2.2)

/-- Squared Euclidean distance between two k-points.  `np.argmin` over
`lib.norm(chk_kpts - kpt, axis=1)` selects the same (first) index as the
argmin over squared norms, since the square root is strictly monotone. -/
def dist2 (a b : V3) : ℚ :=
  (a.1 - b.1) ^ 2 + (a.2.1 - b.2.1) ^ 2 + (a.2.2 - b.2.2) ^ 2

/-- `np.allclose(a, b)` for one pair of k-points with the numpy defaults
`rtol=1e-5`, `atol=1e-8`: componentwise `|a - b| <= atol + rtol * |b|`. -/
def close3 (a b : V3) : Prop :=
  |a.1 - b.1| ≤ 1 / 10 ^ 8 + (1 / 10 ^ 5) * |b.1| ∧
  |a.2.1 - b.2.1| ≤ 1 / 10 ^ 8 + (1 / 10 ^ 5) * |b.2.1| ∧
  |a.2.2 - b.2.2| ≤ 1 / 10 ^ 8 + (1 / 10 ^ 5) * |b.2.2|

instance close3Dec (a b : V3) : Decidable (close3 a b) := by
  unfold close3; infer_instance

/-- `np.allclose(kpts, chk_kpts)` for two equal-shape k-point arrays. -/
def allcloseKpts (xs ys : List V3) : Prop :=
  ∀ p ∈ xs.zip ys, close3 p.1 p.2

instance allcloseKptsDec (xs ys : List V3) : Decidable (allcloseKpts xs ys) := by
  unfold allcloseKpts; infer_instance

/-- `np.allclose(kpts, 0)`: every component of every k-point has magnitude
at most the absolute tolerance `1e-8`. -/
def allclose0 (xs : List V3) : Prop :=
  ∀ a ∈ xs, |a.1| ≤ 1 / 10 ^ 8 ∧ |a.2.1| ≤ 1 / 10 ^ 8 ∧ |a.2.2| ≤ 1 / 10 ^ 8

instance allclose0Dec (xs : List V3) : Decidable (allclose0 xs) := by
  unfold allclose0; infer_instance

/-- `np.argmin` for a list of rationals: the first index attaining the
minimum (`0` for the empty list, which numpy rejects). -/
def argminIdx : List ℚ → ℕ
  | [] => 0
  | [_] => 0
  | x :: y :: ys =>
    let j := argminIdx (y :: ys)
    if x ≤ (y :: ys).getD j 0 then 0 else j + 1

/-- The `fproj` closure of lines 234-238: apply the external projector if
`project` is set, else return the orbitals unchanged. -/
def fproj (project : Bool)
    (proj : Matrix (Fin nao) (Fin nmo) CQ → Option V3 → Matrix (Fin nao) (Fin nmo) CQ)
    (m : Matrix (Fin nao) (Fin nmo) CQ) (dk : Option V3) : Matrix (Fin nao) (Fin nmo) CQ :=
  if project then proj m dk else m

/-- The nearest-checkpoint index list `where` of line 248 for one target
k-point: `np.argmin(lib.norm(chk_kpts - kpt, axis=1))`. -/
def nearestIdx (chk_kpts : List V3) (kpt : V3) : ℕ :=
  argminIdx (chk_kpts.map fun ck => dist2 ck kpt)

/-- The density built by the selected `makedm` closure (lines 240-255):
fast path when the target k-point array has the checkpoint array's shape
and `np.allclose` values (projection with `None` displacement per orbital
matrix), otherwise nearest-checkpoint matching with displacement vectors
`chk_kpts[w] - kpts[i]` and occupations copied from the matched checkpoint
k-points. -/
def chk_dm (project : Bool)
    (proj : Matrix (Fin nao) (Fin nmo) CQ → Option V3 → Matrix (Fin nao) (Fin nmo) CQ)
    (chk_kpts kpts : List V3)
    (mo : List (Matrix (Fin nao) (Fin nmo) CQ) × List (Matrix (Fin nao) (Fin nmo) CQ))
    (mo_occ : List (Fin nmo → ℚ) × List (Fin nmo → ℚ)) :
    List (Matrix (Fin nao) (Fin nao) CQ) × List (Matrix (Fin nao) (Fin nao) CQ) :=
  if kpts.length = chk_kpts.length ∧ allcloseKpts kpts chk_kpts then
    make_rdm1 (mo.1.map fun m => fproj project proj m none,
               mo.2.map fun m => fproj project proj m none) mo_occ
  else
    let w : ℕ → ℕ := fun i => nearestIdx chk_kpts (kpts.getD i (0, 0, 0))
    let dk : ℕ → V3 := fun i => v3sub (chk_kpts.getD (w i) (0, 0, 0)) (kpts.getD i (0, 0, 0))
    make_rdm1
      ((List.range kpts.length).map fun i => fproj project proj (mo.1.getD (w i) 0) (some (dk i)),
       (List.range kpts.length).map fun i => fproj project proj (mo.2.getD (w i) 0) (some (dk i)))
      ((List.range kpts.length).map fun i => mo_occ.1.getD (w i) fun _ => 0,
       (List.range kpts.length).map fun i => mo_occ.2.getD (w i) fun _ => 0)

/-- The gamma-point post-processing of lines 264-267: force a real density
(`dm = dm.real`) when `np.allclose(kpts, 0)`. -/
def gammaForce (kpts : List V3)
    (dm : List (Matrix (Fin nao) (Fin nao) CQ) × List (Matrix (Fin nao) (Fin nao) CQ)) :
    List (Matrix (Fin nao) (Fin nao) CQ) × List (Matrix (Fin nao) (Fin nao) CQ) :=
  if allclose0 kpts then (dm.1.map mreal, dm.2.map mreal) else dm

/-- `init_guess_by_chkfile(cell, chkfile_name, project, kpts)` on a KUHF
checkpoint record. -/
def init_guess_by_chkfile (project : Bool)
    (proj : Matrix (Fin nao) (Fin nmo) CQ → Option V3 → Matrix (Fin nao) (Fin nmo) CQ)
    (chk_kpts kpts : List V3)
    (mo : List (Matrix (Fin nao) (Fin nmo) CQ) × List (Matrix (Fin nao) (Fin nmo) CQ))
    (mo_occ : List (Fin nmo → ℚ) × List (Fin nmo → ℚ)) :
    List (Matrix (Fin nao) (Fin nao) CQ) × List (Matrix (Fin nao) (Fin nao) CQ) :=
  gammaForce kpts (chk_dm project proj chk_kpts kpts mo mo_occ)

end ChkGuess

/-! ## Claim theorems -/

/-- `1×1` matrix with the single entry `1`. -/
def cxOne : Matrix (Fin 1) (Fin 1) CQ := Matrix.of fun _ _ => ⟨1, 0⟩

/-- `1×1` matrix with the single entry `-2i`. -/
def cxNegTwoI : Matrix (Fin 1) (Fin 1) CQ := Matrix.of fun _ _ => ⟨0, -2⟩

/-- C1: at `dm = (([[1]]), ([[0]]))`, `h1e = [[0]]`, `vhf = (([[-2i]]), ([[0]]))`
(one k-point), the Coulomb energy is `e_coul = -i`, whose imaginary part has
magnitude `1 > 1e-10`; yet `energy_elec` raises no error and silently
truncates, returning `(0, 0)` — because line 129 computes
`abs(e_coul.imag > 1.e-10)`, the absolute value of a boolean, so only a
positive imaginary part can trigger the `RuntimeError`. -/
theorem energy_elec_misses_negative_imag :
    (e_coul_val ([cxOne], [(0 : Matrix (Fin 1) (Fin 1) CQ)]) [(0 : Matrix (Fin 1) (Fin 1) CQ)]
        ([cxNegTwoI], [(0 : Matrix (Fin 1) (Fin 1) CQ)])).im = -1 ∧
    energy_elec ([cxOne], [(0 : Matrix (Fin 1) (Fin 1) CQ)]) [(0 : Matrix (Fin 1) (Fin 1) CQ)]
        ([cxNegTwoI], [(0 : Matrix (Fin 1) (Fin 1) CQ)]) = Except.ok (0, 0) := by
  have hec : e_coul_val ([cxOne], [(0 : Matrix (Fin 1) (Fin 1) CQ)])
      [(0 : Matrix (Fin 1) (Fin 1) CQ)] ([cxNegTwoI], [(0 : Matrix (Fin 1) (Fin 1) CQ)]) =
      ⟨0, -1⟩ := by
    apply CQ.ext_cq <;>
      simp [e_coul_val, einsum_kij_kji, einsum_ij_ji, cxOne, cxNegTwoI, CQ.ofQ,
        Finset.sum_range_one, Fin.sum_univ_one] <;> norm_num
  have he1 : e1_val ([cxOne], [(0 : Matrix (Fin 1) (Fin 1) CQ)])
      [(0 : Matrix (Fin 1) (Fin 1) CQ)] = 0 := by
    apply CQ.ext_cq <;>
      simp [e1_val, einsum_kij_kji, einsum_ij_ji, cxOne, CQ.ofQ,
        Finset.sum_range_one, Fin.sum_univ_one]
  refine ⟨by rw [hec], ?_⟩
  simp only [energy_elec, hec, he1]
  norm_num

/-- C5: supplying the per-spin pair form of `level_shift_factor` makes
`get_fock` raise a `TypeError` at line 59 (`abs` of a tuple is undefined in
Python), before any level shift is applied — for every input and every pair,
regardless of the shift magnitudes. -/
theorem get_fock_pair_level_shift_raises {nao : ℕ}
    (lvl : Matrix (Fin nao) (Fin nao) CQ → Matrix (Fin nao) (Fin nao) CQ →
      Matrix (Fin nao) (Fin nao) CQ → ℚ → Matrix (Fin nao) (Fin nao) CQ)
    (h1e_kpts s_kpts : List (Matrix (Fin nao) (Fin nao) CQ))
    (vhf_kpts dm_kpts : List (Matrix (Fin nao) (Fin nao) CQ) × List (Matrix (Fin nao) (Fin nao) CQ))
    (a b : ℚ) :
    get_fock lvl h1e_kpts s_kpts vhf_kpts dm_kpts (LevelShiftFactor.pairLS a b) =
      Except.error "TypeError: bad operand type for abs" := rfl

section C4

variable {nao : ℕ}

/-- `e1` as the specification states it:
`(1/nkpts) Σ_k [tr(D_α[k] H[k]) + tr(D_β[k] H[k])]`. -/
def e1_claim (dm_kpts : List (Matrix (Fin nao) (Fin nao) CQ) × List (Matrix (Fin nao) (Fin nao) CQ))
    (h1e_kpts : List (Matrix (Fin nao) (Fin nao) CQ)) : CQ :=
  CQ.ofQ (1 / (h1e_kpts.length : ℚ)) *
    ∑ k ∈ Finset.range h1e_kpts.length,
      (Matrix.trace (dm_kpts.1.getD k 0 * h1e_kpts.getD k 0) +
       Matrix.trace (dm_kpts.2.getD k 0 * h1e_kpts.getD k 0))

/-- `e_coul` as the specification states it:
`(1/nkpts) Σ_k [tr(D_α[k] Veff_α[k]) + tr(D_β[k] Veff_β[k])] / 2`. -/
def e_coul_claim
    (dm_kpts : List (Matrix (Fin nao) (Fin nao) CQ) × List (Matrix (Fin nao) (Fin nao) CQ))
    (h1e_kpts : List (Matrix (Fin nao) (Fin nao) CQ))
    (vhf_kpts : List (Matrix (Fin nao) (Fin nao) CQ) × List (Matrix (Fin nao) (Fin nao) CQ)) :
    CQ :=
  CQ.ofQ (1 / (h1e_kpts.length : ℚ)) *
    (∑ k ∈ Finset.range h1e_kpts.length,
      (Matrix.trace (dm_kpts.1.getD k 0 * vhf_kpts.1.getD k 0) +
       Matrix.trace (dm_kpts.2.getD k 0 * vhf_kpts.2.getD k 0))) * CQ.ofQ (1 / 2)

theorem e1_val_eq_claim
    (dm_kpts : List (Matrix (Fin nao) (Fin nao) CQ) × List (Matrix (Fin nao) (Fin nao) CQ))
    (h1e_kpts : List (Matrix (Fin nao) (Fin nao) CQ)) :
    e1_val dm_kpts h1e_kpts = e1_claim dm_kpts h1e_kpts := by
  simp only [e1_val, e1_claim, einsum_kij_kji, einsum_ij_ji_eq_trace]
  rw [← mul_add, ← Finset.sum_add_distrib]

theorem e_coul_val_eq_claim
    (dm_kpts : List (Matrix (Fin nao) (Fin nao) CQ) × List (Matrix (Fin nao) (Fin nao) CQ))
    (h1e_kpts : List (Matrix (Fin nao) (Fin nao) CQ))
    (vhf_kpts : List (Matrix (Fin nao) (Fin nao) CQ) × List (Matrix (Fin nao) (Fin nao) CQ)) :
    e_coul_val dm_kpts h1e_kpts vhf_kpts = e_coul_claim dm_kpts h1e_kpts vhf_kpts := by
  simp only [e_coul_val, e_coul_claim, einsum_kij_kji, einsum_ij_ji_eq_trace]
  rw [Finset.sum_add_distrib]
  ring

/-- C4: whenever the (one-sided) imaginary-part guard of line 129 does not
fire, `energy_elec` returns exactly the pair
`(Re e1 + Re e_coul, Re e_coul)` with `e1` and `e_coul` given by the
specification's trace formulas. -/
theorem energy_elec_formula
    (dm_kpts : List (Matrix (Fin nao) (Fin nao) CQ) × List (Matrix (Fin nao) (Fin nao) CQ))
    (h1e_kpts : List (Matrix (Fin nao) (Fin nao) CQ))
    (vhf_kpts : List (Matrix (Fin nao) (Fin nao) CQ) × List (Matrix (Fin nao) (Fin nao) CQ))
    (him : ¬ (e_coul_val dm_kpts h1e_kpts vhf_kpts).im > 1 / 10 ^ 10) :
    energy_elec dm_kpts h1e_kpts vhf_kpts =
      Except.ok ((e1_claim dm_kpts h1e_kpts).re + (e_coul_claim dm_kpts h1e_kpts vhf_kpts).re,
        (e_coul_claim dm_kpts h1e_kpts vhf_kpts).re) := by
  simp only [energy_elec]
  rw [if_neg him, e1_val_eq_claim, e_coul_val_eq_claim]

/-- Witness for C4 at a concrete one-k-point input with real matrices. -/
theorem energy_elec_formula_witness :
    energy_elec ([cxOne], [cxOne]) [cxOne] ([cxOne], [(0 : Matrix (Fin 1) (Fin 1) CQ)]) =
      Except.ok ((e1_claim ([cxOne], [cxOne]) [cxOne]).re +
        (e_coul_claim ([cxOne], [cxOne]) [cxOne]
          ([cxOne], [(0 : Matrix (Fin 1) (Fin 1) CQ)])).re,
        (e_coul_claim ([cxOne], [cxOne]) [cxOne]
          ([cxOne], [(0 : Matrix (Fin 1) (Fin 1) CQ)])).re) :=
  energy_elec_formula ([cxOne], [cxOne]) [cxOne] ([cxOne], [(0 : Matrix (Fin 1) (Fin 1) CQ)])
    (by
      have h : e_coul_val ([cxOne], [cxOne]) [cxOne]
          ([cxOne], [(0 : Matrix (Fin 1) (Fin 1) CQ)]) = ⟨1 / 2, 0⟩ := by
        apply CQ.ext_cq <;>
          simp [e_coul_val, einsum_kij_kji, einsum_ij_ji, cxOne, CQ.ofQ,
            Finset.sum_range_one, Fin.sum_univ_one] <;> norm_num
      rw [h]
      norm_num)

end C4

section C3

variable {nao nmo : ℕ}

/-- C3: `make_rdm1` yields the `(2, nkpts, nao, nao)` array (`nkpts`
blocks per spin) whose `(s, k)` block is `C · diag(occ) · C^H`, and every
block is Hermitian. -/
theorem make_rdm1_blocks
    (moa mob : List (Matrix (Fin nao) (Fin nmo) CQ))
    (occa occb : List (Fin nmo → ℚ)) (k : ℕ) (hk : k < occa.length) :
    (make_rdm1 (moa, mob) (occa, occb)).1.length = occa.length ∧
    (make_rdm1 (moa, mob) (occa, occb)).2.length = occa.length ∧
    (make_rdm1 (moa, mob) (occa, occb)).1.getD k 0 =
      (moa.getD k 0) * diagQ (occa.getD k fun _ => 0) * (moa.getD k 0).conjTranspose ∧
    (make_rdm1 (moa, mob) (occa, occb)).2.getD k 0 =
      (mob.getD k 0) * diagQ (occb.getD k fun _ => 0) * (mob.getD k 0).conjTranspose ∧
    ((make_rdm1 (moa, mob) (occa, occb)).1.getD k 0).conjTranspose =
      (make_rdm1 (moa, mob) (occa, occb)).1.getD k 0 ∧
    ((make_rdm1 (moa, mob) (occa, occb)).2.getD k 0).conjTranspose =
      (make_rdm1 (moa, mob) (occa, occb)).2.getD k 0 := by
  have h1 : (make_rdm1 (moa, mob) (occa, occb)).1 = make_dm moa occa occa.length := rfl
  have h2 : (make_rdm1 (moa, mob) (occa, occb)).2 = make_dm mob occb occa.length := rfl
  rw [h1, h2]
  refine ⟨by simp [make_dm], by simp [make_dm], ?_, ?_, ?_, ?_⟩
  · rw [make_dm_getD _ _ _ _ hk, make_dm_k_eq_diag_form]
  · rw [make_dm_getD _ _ _ _ hk, make_dm_k_eq_diag_form]
  · rw [make_dm_getD _ _ _ _ hk, make_dm_k_hermitian]
  · rw [make_dm_getD _ _ _ _ hk, make_dm_k_hermitian]

end C3

/-! ## C2: global Fermi filling -/

/-- Select the alpha or beta component of a spin pair. -/
def spinSel {α : Type} (s : Fin 2) (p : α × α) : α := if s = 0 then p.1 else p.2

theorem pyIdx_pred (l : List ℚ) (n : ℕ) (h : 0 < n) :
    pyIdx l ((n : Int) - 1) = l.getD (n - 1) 0 := by
  unfold pyIdx
  rw [if_neg (by omega)]
  congr 1
  omega

theorem sum_indicator_eq_countP (l : List ℚ) (f : ℚ) :
    (l.map fun e => if e ≤ f then (1 : ℚ) else 0).sum =
      (l.countP (fun e => decide (e ≤ f)) : ℚ) := by
  induction l with
  | nil => simp
  | cons a l ih =>
    rw [List.map_cons, List.sum_cons, List.countP_cons, ih]
    by_cases h : a ≤ f
    · simp [h]
      ring
    · simp [h]

theorem sum_flatten_indicator (ess : List (List ℚ)) (f : ℚ) :
    ((ess.map fun es => es.map fun e => if e ≤ f then (1 : ℚ) else 0).flatten).sum =
      (ess.flatten.countP (fun e => decide (e ≤ f)) : ℚ) := by
  induction ess with
  | nil => simp
  | cons es ess ih =>
    rw [List.map_cons, List.flatten_cons, List.flatten_cons, List.sum_append,
      List.countP_append, sum_indicator_eq_countP, ih]
    push_cast
    ring

/-- For an ascending-sorted list with no tie at the cutoff rank `n - 1`,
exactly `n` entries are at most the entry at rank `n - 1`. -/
theorem countP_le_rank (L : List ℚ) (hs : L.Sorted (· ≤ ·)) (n : ℕ)
    (h1 : 1 ≤ n) (h2 : n ≤ L.length)
    (h3 : n < L.length → L.getD (n - 1) 0 < L.getD n 0) :
    L.countP (fun e => decide (e ≤ L.getD (n - 1) 0)) = n := by
  have hn1 : n - 1 < L.length := by omega
  set f := L.getD (n - 1) 0 with hf
  have htake : (L.take n).countP (fun e => decide (e ≤ f)) = (L.take n).length := by
    rw [List.countP_eq_length]
    intro a ha
    obtain ⟨i, hi, rfl⟩ := List.getElem_of_mem ha
    have hi' : i < n := by
      have h := hi
      rw [List.length_take] at h
      omega
    have hiL : i < L.length := by omega
    simp only [decide_eq_true_eq]
    rw [List.getElem_take, hf, List.getD_eq_getElem L 0 hn1]
    have hfin : (⟨i, hiL⟩ : Fin L.length) ≤ ⟨n - 1, hn1⟩ := by
      simp only [Fin.le_def]
      omega
    have h := hs.rel_get_of_le hfin
    simpa using h
  have hdrop : (L.drop n).countP (fun e => decide (e ≤ f)) = 0 := by
    rw [List.countP_eq_zero]
    intro a ha
    obtain ⟨i, hi, rfl⟩ := List.getElem_of_mem ha
    have hilen : n + i < L.length := by
      have h := hi
      rw [List.length_drop] at h
      omega
    have hnL : n < L.length := by omega
    simp only [decide_eq_true_eq]
    rw [List.getElem_drop]
    have hlt : f < L[n + i] := by
      calc f < L.getD n 0 := h3 hnL
        _ = L[n] := List.getD_eq_getElem L 0 hnL
        _ ≤ L[n + i] := by
            have hfin : (⟨n, hnL⟩ : Fin L.length) ≤ ⟨n + i, hilen⟩ := by
              simp only [Fin.le_def]
              omega
            have h := hs.rel_get_of_le hfin
            simpa using h
    exact not_le.2 hlt
  have hsplit := List.countP_append (p := fun e => decide (e ≤ f)) (L.take n) (L.drop n)
  rw [List.take_append_drop] at hsplit
  rw [hsplit, htake, hdrop, List.length_take]
  omega

/-- One spin channel of `get_occ`, characterized: the Fermi level is the
pooled sorted energy at rank `nocc - 1`, occupations are the indicator of
energy at most the Fermi level, and they sum to `nocc`. -/
theorem get_occ_spin_spec (nocc : ℕ) (ess : List (List ℚ))
    (hle : nocc ≤ ess.flatten.length)
    (hnotie : nocc < ess.flatten.length →
      (List.insertionSort (fun a b => a ≤ b) ess.flatten).getD (nocc - 1) 0 <
        (List.insertionSort (fun a b => a ≤ b) ess.flatten).getD nocc 0) :
    get_occ_spin nocc ess =
      ess.map (fun es => es.map fun e =>
        if e ≤ (List.insertionSort (fun a b => a ≤ b) ess.flatten).getD (nocc - 1) 0
        then (1 : ℚ) else 0) ∧
    (get_occ_spin nocc ess).flatten.sum = (nocc : ℚ) := by
  set L := List.insertionSort (fun a b => a ≤ b) ess.flatten with hL
  have hperm : List.Perm L ess.flatten := List.perm_insertionSort _ _
  have hlen : L.length = ess.flatten.length := hperm.length_eq
  have hsorted : L.Sorted (· ≤ ·) := List.sorted_insertionSort _ _
  rcases Nat.eq_zero_or_pos nocc with h0 | hpos
  · subst h0
    rcases Nat.eq_zero_or_pos ess.flatten.length with hf0 | hfpos
    · have hnil : ess.flatten = [] := List.length_eq_zero.mp hf0
      have hLnil : L = [] := by rw [hL, hnil]; rfl
      have hocc : get_occ_spin 0 ess =
          ess.map (fun es => es.map fun e => if e ≤ L.getD (0 - 1) 0 then (1 : ℚ) else 0) := by
        simp only [get_occ_spin, ← hL, hLnil, pyIdx, List.getD_nil]
        norm_num
      refine ⟨hocc, ?_⟩
      rw [hocc]
      have hflat : (ess.map (fun es => es.map fun e =>
          if e ≤ L.getD (0 - 1) 0 then (1 : ℚ) else 0)).flatten =
          ess.flatten.map fun e => if e ≤ L.getD (0 - 1) 0 then (1 : ℚ) else 0 :=
        (List.map_flatten _ ess).symm
      rw [hflat, hnil]
      simp
    · exfalso
      have h := hnotie (by omega)
      simp only [Nat.zero_sub] at h
      exact lt_irrefl _ h
  · have hocc : get_occ_spin nocc ess =
        ess.map (fun es => es.map fun e => if e ≤ L.getD (nocc - 1) 0 then (1 : ℚ) else 0) := by
      simp only [get_occ_spin, ← hL]
      rw [pyIdx_pred _ _ hpos]
    refine ⟨hocc, ?_⟩
    rw [hocc, sum_flatten_indicator, ← hperm.countP_eq]
    rw [countP_le_rank L hsorted nocc hpos (by omega) (fun h => hnotie (by omega))]

/-- C2: for a spin channel `s` with `nelec[s] > 0` and pooled sorted
energies with no tie at the cutoff rank, `get_occ` sets the Fermi level to
the pooled sorted energy at 0-indexed rank `nelec[s]*nkpts - 1`, occupies
exactly the orbitals with energy at most that level with `1.0` (else
`0.0`), and the occupations sum to `nelec[s]*nkpts`. -/
theorem get_occ_fermi_filling (nelec : ℕ × ℕ) (es : List (List ℚ) × List (List ℚ)) (s : Fin 2)
    (hpos : 0 < spinSel s nelec)
    (hle : spinSel s nelec * es.1.length ≤ (spinSel s es).flatten.length)
    (hnotie : spinSel s nelec * es.1.length < (spinSel s es).flatten.length →
      (List.insertionSort (fun a b => a ≤ b) (spinSel s es).flatten).getD
          (spinSel s nelec * es.1.length - 1) 0 <
        (List.insertionSort (fun a b => a ≤ b) (spinSel s es).flatten).getD
          (spinSel s nelec * es.1.length) 0) :
    spinSel s (get_occ nelec es) =
      (spinSel s es).map (fun esk => esk.map fun e =>
        if e ≤ (List.insertionSort (fun a b => a ≤ b) (spinSel s es).flatten).getD
            (spinSel s nelec * es.1.length - 1) 0
        then (1 : ℚ) else 0) ∧
    (spinSel s (get_occ nelec es)).flatten.sum = ((spinSel s nelec * es.1.length : ℕ) : ℚ) := by
  by_cases hsz : s = 0
  · subst hsz
    simp only [spinSel, if_pos rfl] at hle hnotie ⊢
    exact get_occ_spin_spec (nelec.1 * es.1.length) es.1 hle hnotie
  · have hs1 : s = 1 := by omega
    subst hs1
    have hne : ¬ ((1 : Fin 2) = 0) := by decide
    simp only [spinSel, if_neg hne] at hpos hle hnotie ⊢
    have h := get_occ_spin_spec (nelec.2 * es.1.length) es.2 hle hnotie
    have hsel : (get_occ nelec es).2 = get_occ_spin (nelec.2 * es.1.length) es.2 := by
      simp only [get_occ]
      rw [if_pos hpos]
    rw [hsel]
    exact h

/-- Concrete orbital-energy family for the C2 witness: two k-points. -/
def esW : List (List ℚ) × List (List ℚ) := ([[0], [1]], [[5], [6]])

/-- Witness for C2: two k-points, `nelec = (1, 1)`, alpha channel. -/
theorem get_occ_fermi_filling_witness :
    0 < spinSel 0 ((1, 1) : ℕ × ℕ) ∧
    (spinSel 0 (get_occ (1, 1) esW) =
      (spinSel 0 esW).map (fun esk => esk.map fun e =>
        if e ≤ (List.insertionSort (fun a b => a ≤ b) (spinSel 0 esW).flatten).getD
            (spinSel 0 ((1, 1) : ℕ × ℕ) * esW.1.length - 1) 0
        then (1 : ℚ) else 0) ∧
    (spinSel 0 (get_occ (1, 1) esW)).flatten.sum =
      ((spinSel 0 ((1, 1) : ℕ × ℕ) * esW.1.length : ℕ) : ℚ)) :=
  ⟨by decide,
   get_occ_fermi_filling (1, 1) esW 0 (by decide) (by decide)
     (fun h => absurd h (by decide))⟩

/-- Witness for C3 at one k-point with a complex coefficient matrix. -/
theorem make_rdm1_blocks_witness :
    (make_rdm1 ([cxOne], [cxNegTwoI])
        (([fun _ => (1 : ℚ)], [fun _ => (0 : ℚ)]) :
          List (Fin 1 → ℚ) × List (Fin 1 → ℚ))).1.length = 1 ∧
    (make_rdm1 ([cxOne], [cxNegTwoI])
        (([fun _ => (1 : ℚ)], [fun _ => (0 : ℚ)]) :
          List (Fin 1 → ℚ) × List (Fin 1 → ℚ))).1.getD 0 0 =
      cxOne * diagQ (fun _ => (1 : ℚ)) * cxOne.conjTranspose ∧
    ((make_rdm1 ([cxOne], [cxNegTwoI])
        (([fun _ => (1 : ℚ)], [fun _ => (0 : ℚ)]) :
          List (Fin 1 → ℚ) × List (Fin 1 → ℚ))).2.getD 0 0).conjTranspose =
      (make_rdm1 ([cxOne], [cxNegTwoI])
        (([fun _ => (1 : ℚ)], [fun _ => (0 : ℚ)]) :
          List (Fin 1 → ℚ) × List (Fin 1 → ℚ))).2.getD 0 0 := by
  have h := make_rdm1_blocks [cxOne] [cxNegTwoI]
    ([fun _ => (1 : ℚ)] : List (Fin 1 → ℚ)) ([fun _ => (0 : ℚ)] : List (Fin 1 → ℚ))
    0 (by decide)
  obtain ⟨h1, h2, h3, h4, h5, h6⟩ := h
  refine ⟨h1, ?_, h6⟩
  rw [h3]
  congr 1

/-! ## C6: canonicalization preserves the density matrix -/

@[simp] theorem CQ.ofQ_zero : CQ.ofQ 0 = 0 := rfl

@[simp] theorem CQ.ofQ_one : CQ.ofQ 1 = 1 := rfl

section C6

variable {nao nmo : ℕ}

/-- With `0/1` occupations, the density block is the outer product of the
occupied columns: `D = C_occ · C_occ^H`. -/
theorem make_dm_k_eq_occ_outer (M : Matrix (Fin nao) (Fin nmo) CQ) (o : Fin nmo → ℚ)
    (h01 : ∀ j, o j = 0 ∨ o j = 1) :
    make_dm_k M o =
      M.submatrix id (Subtype.val : {j : Fin nmo // o j = 1} → Fin nmo) *
        (M.submatrix id (Subtype.val : {j : Fin nmo // o j = 1} → Fin nmo)).conjTranspose := by
  ext i l
  rw [make_dm_k, Matrix.mul_apply, Matrix.mul_apply]
  simp only [colScale, Matrix.of_apply, Matrix.conjTranspose_apply, Matrix.submatrix_apply, id_eq]
  rw [← Finset.sum_filter_add_sum_filter_not Finset.univ (fun j => o j = 1)
      (fun j => M i j * CQ.ofQ (o j) * star (M l j))]
  have hz : (∑ j ∈ Finset.univ.filter (fun j => ¬ o j = 1),
      M i j * CQ.ofQ (o j) * star (M l j)) = 0 := by
    apply Finset.sum_eq_zero
    intro j hj
    rw [Finset.mem_filter] at hj
    rcases h01 j with h | h
    · rw [h, CQ.ofQ_zero, mul_zero, zero_mul]
    · exact absurd h hj.2
  rw [hz, add_zero]
  have hiff : ∀ x : Fin nmo, x ∈ Finset.univ.filter (fun j => o j = 1) ↔ o x = 1 := by
    intro x
    simp
  rw [Finset.sum_subtype _ hiff (fun j => M i j * CQ.ofQ (o j) * star (M l j))]
  apply Finset.sum_congr rfl
  intro a _
  rw [a.2, CQ.ofQ_one, mul_one]

/-- The occupied-column block of the canonicalized coefficients is the
occupied block of the originals rotated by `cOcc`. -/
theorem canonicalize_mo_occ_block (C : Matrix (Fin nao) (Fin nmo) CQ) (o : Fin nmo → ℚ)
    (cOcc : Matrix {j : Fin nmo // o j = 1} {j : Fin nmo // o j = 1} CQ)
    (cVir : Matrix {j : Fin nmo // ¬o j = 1} {j : Fin nmo // ¬o j = 1} CQ) :
    (canonicalize_mo C o cOcc cVir).submatrix id
        (Subtype.val : {j : Fin nmo // o j = 1} → Fin nmo) =
      C.submatrix id (Subtype.val : {j : Fin nmo // o j = 1} → Fin nmo) * cOcc := by
  ext i a
  simp only [Matrix.submatrix_apply, canonicalize_mo, Matrix.of_apply, id_eq, Matrix.mul_apply]
  rw [dif_pos a.2]

/-- Core of C6, per spin and k-point: with `0/1` occupations and a unitary
occupied-block rotation (as `scipy.linalg.eigh` returns for the Hermitian
projected Fock), canonicalization leaves the density block unchanged. -/
theorem make_dm_k_canonicalize (C : Matrix (Fin nao) (Fin nmo) CQ) (o : Fin nmo → ℚ)
    (cOcc : Matrix {j : Fin nmo // o j = 1} {j : Fin nmo // o j = 1} CQ)
    (cVir : Matrix {j : Fin nmo // ¬o j = 1} {j : Fin nmo // ¬o j = 1} CQ)
    (h01 : ∀ j, o j = 0 ∨ o j = 1)
    (hu : cOcc * cOcc.conjTranspose = 1) :
    make_dm_k (canonicalize_mo C o cOcc cVir) o = make_dm_k C o := by
  rw [make_dm_k_eq_occ_outer _ o h01, make_dm_k_eq_occ_outer C o h01,
    canonicalize_mo_occ_block, Matrix.conjTranspose_mul, Matrix.mul_assoc,
    ← Matrix.mul_assoc cOcc, hu, Matrix.one_mul]

/-- C6: building the density from canonicalized orbitals with unchanged
`0/1` occupations reproduces the original density exactly, for every
spin and k-point family with unitary occupied-block rotations. -/
theorem canonicalize_preserves_rdm1
    (moa mob : List (Matrix (Fin nao) (Fin nmo) CQ))
    (occa occb : List (Fin nmo → ℚ))
    (RA : ∀ k : ℕ, Matrix {j : Fin nmo // (occa.getD k fun _ => 0) j = 1}
      {j : Fin nmo // (occa.getD k fun _ => 0) j = 1} CQ)
    (RVA : ∀ k : ℕ, Matrix {j : Fin nmo // ¬(occa.getD k fun _ => 0) j = 1}
      {j : Fin nmo // ¬(occa.getD k fun _ => 0) j = 1} CQ)
    (RB : ∀ k : ℕ, Matrix {j : Fin nmo // (occb.getD k fun _ => 0) j = 1}
      {j : Fin nmo // (occb.getD k fun _ => 0) j = 1} CQ)
    (RVB : ∀ k : ℕ, Matrix {j : Fin nmo // ¬(occb.getD k fun _ => 0) j = 1}
      {j : Fin nmo // ¬(occb.getD k fun _ => 0) j = 1} CQ)
    (hla : moa.length = occa.length) (hlb : mob.length = occa.length)
    (h01a : ∀ k j, (occa.getD k fun _ => 0) j = 0 ∨ (occa.getD k fun _ => 0) j = 1)
    (h01b : ∀ k j, (occb.getD k fun _ => 0) j = 0 ∨ (occb.getD k fun _ => 0) j = 1)
    (hua : ∀ k, RA k * (RA k).conjTranspose = 1)
    (hub : ∀ k, RB k * (RB k).conjTranspose = 1) :
    make_rdm1 (canonicalize_spin moa occa RA RVA, canonicalize_spin mob occb RB RVB)
        (occa, occb) =
      make_rdm1 (moa, mob) (occa, occb) := by
  have e1 : make_dm (canonicalize_spin moa occa RA RVA) occa occa.length =
      make_dm moa occa occa.length := by
    unfold make_dm
    apply List.map_congr_left
    intro k hk
    rw [List.mem_range] at hk
    have hkm : k < moa.length := by omega
    have hc : (canonicalize_spin moa occa RA RVA).getD k 0 =
        canonicalize_mo (moa.getD k 0) (occa.getD k fun _ => 0) (RA k) (RVA k) := by
      unfold canonicalize_spin
      rw [List.getD_eq_getElem?_getD, List.getElem?_map, List.getElem?_range hkm]
      rfl
    rw [hc, make_dm_k_canonicalize _ _ _ _ (h01a k) (hua k)]
  have e2 : make_dm (canonicalize_spin mob occb RB RVB) occb occa.length =
      make_dm mob occb occa.length := by
    unfold make_dm
    apply List.map_congr_left
    intro k hk
    rw [List.mem_range] at hk
    have hkm : k < mob.length := by omega
    have hc : (canonicalize_spin mob occb RB RVB).getD k 0 =
        canonicalize_mo (mob.getD k 0) (occb.getD k fun _ => 0) (RB k) (RVB k) := by
      unfold canonicalize_spin
      rw [List.getD_eq_getElem?_getD, List.getElem?_map, List.getElem?_range hkm]
      rfl
    rw [hc, make_dm_k_canonicalize _ _ _ _ (h01b k) (hub k)]
  have hfst : (make_rdm1 (canonicalize_spin moa occa RA RVA,
      canonicalize_spin mob occb RB RVB) (occa, occb)) =
      (make_dm (canonicalize_spin moa occa RA RVA) occa occa.length,
       make_dm (canonicalize_spin mob occb RB RVB) occb occa.length) := rfl
  have hsnd : (make_rdm1 (moa, mob) (occa, occb)) =
      (make_dm moa occa occa.length, make_dm mob occb occa.length) := rfl
  rw [hfst, hsnd, e1, e2]

/-- Witness for C6: one k-point, identity rotations. -/
theorem canonicalize_preserves_rdm1_witness :
    make_rdm1
        (canonicalize_spin [cxOne] ([fun _ => (1 : ℚ)] : List (Fin 1 → ℚ))
          (fun _ => 1) (fun _ => 1),
         canonicalize_spin [cxOne] ([fun _ => (1 : ℚ)] : List (Fin 1 → ℚ))
          (fun _ => 1) (fun _ => 1))
        ([fun _ => (1 : ℚ)], [fun _ => (1 : ℚ)]) =
      make_rdm1 ([cxOne], [cxOne]) ([fun _ => (1 : ℚ)], [fun _ => (1 : ℚ)]) := by
  refine canonicalize_preserves_rdm1 [cxOne] [cxOne]
    ([fun _ => (1 : ℚ)] : List (Fin 1 → ℚ)) ([fun _ => (1 : ℚ)] : List (Fin 1 → ℚ))
    (fun _ => 1) (fun _ => 1) (fun _ => 1) (fun _ => 1)
    rfl rfl ?_ ?_ ?_ ?_
  · intro k j
    match k with
    | 0 => exact Or.inr rfl
    | _ + 1 => exact Or.inl rfl
  · intro k j
    match k with
    | 0 => exact Or.inr rfl
    | _ + 1 => exact Or.inl rfl
  · intro k
    rw [Matrix.conjTranspose_one, Matrix.mul_one]
  · intro k
    rw [Matrix.conjTranspose_one, Matrix.mul_one]

end C6

/-! ## C7 and C8: initial guess replication, scaling, and low-dimension
electron-count rescaling -/

section C7C8

variable {nao : ℕ}

/-- The claim-side value of the non-checkpoint guess: the k-point-independent
pair replicated over all k-points, alpha scaled by `1.01`, beta by `0.99`. -/
def scaled_replica (nkpts : ℕ)
    (dm : Matrix (Fin nao) (Fin nao) CQ × Matrix (Fin nao) (Fin nao) CQ) :
    List (Matrix (Fin nao) (Fin nao) CQ) × List (Matrix (Fin nao) (Fin nao) CQ) :=
  (List.replicate nkpts (mscale (CQ.ofQ (101 / 100)) dm.1),
   List.replicate nkpts (mscale (CQ.ofQ (99 / 100)) dm.2))

/-- Shared characterization of `get_init_guess` for a low-dimensional cell:
the replicated scaled guess goes through the electron-count check, and is
rescaled per spin and k-point by `nelec[s] / ne[s,k]` exactly when some
deviation exceeds `1e-7` in magnitude. -/
theorem get_init_guess_lowdim_eq (dimension natm : ℕ) (nelec : ℚ × ℚ) (nkpts : ℕ)
    (ovlp : List (Matrix (Fin nao) (Fin nao) CQ))
    (g1e gatom gminao : Matrix (Fin nao) (Fin nao) CQ × Matrix (Fin nao) (Fin nao) CQ)
    (key : InitGuessKey) (hd : dimension < 3) :
    get_init_guess dimension natm nelec nkpts ovlp g1e gatom gminao key =
      (let dmA := (scaled_replica nkpts (select_guess natm key g1e gatom gminao)).1
       let dmB := (scaled_replica nkpts (select_guess natm key g1e gatom gminao)).2
       if ∃ k ∈ List.range nkpts,
           CQ.absGt (ne_count dmA ovlp k - CQ.ofQ nelec.1) (1 / 10 ^ 7) ∨
           CQ.absGt (ne_count dmB ovlp k - CQ.ofQ nelec.2) (1 / 10 ^ 7) then
         ((List.range nkpts).map fun k =>
            mscale (CQ.div (CQ.ofQ nelec.1) (ne_count dmA ovlp k)) (dmA.getD k 0),
          (List.range nkpts).map fun k =>
            mscale (CQ.div (CQ.ofQ nelec.2) (ne_count dmB ovlp k)) (dmB.getD k 0))
       else (dmA, dmB)) := by
  simp only [get_init_guess, scaled_replica]
  rw [if_pos hd]

/-- C8: for a cell of dimension below 3, `get_init_guess` rescales the
guess density per spin and k-point by `nelec[s] / ne[s,k]` exactly when
some per-spin, per-k electron count deviates from `cell.nelec` by more than
`1e-7`, and returns the replicated scaled guess unrescaled otherwise; the
function is total (the violation never raises). -/
theorem get_init_guess_lowdim_rescale (dimension natm : ℕ) (nelec : ℚ × ℚ) (nkpts : ℕ)
    (ovlp : List (Matrix (Fin nao) (Fin nao) CQ))
    (g1e gatom gminao : Matrix (Fin nao) (Fin nao) CQ × Matrix (Fin nao) (Fin nao) CQ)
    (key : InitGuessKey) (hd : dimension < 3) :
    get_init_guess dimension natm nelec nkpts ovlp g1e gatom gminao key =
      (let dmA := (scaled_replica nkpts (select_guess natm key g1e gatom gminao)).1
       let dmB := (scaled_replica nkpts (select_guess natm key g1e gatom gminao)).2
       if ∃ k ∈ List.range nkpts,
           CQ.absGt (ne_count dmA ovlp k - CQ.ofQ nelec.1) (1 / 10 ^ 7) ∨
           CQ.absGt (ne_count dmB ovlp k - CQ.ofQ nelec.2) (1 / 10 ^ 7) then
         ((List.range nkpts).map fun k =>
            mscale (CQ.div (CQ.ofQ nelec.1) (ne_count dmA ovlp k)) (dmA.getD k 0),
          (List.range nkpts).map fun k =>
            mscale (CQ.div (CQ.ofQ nelec.2) (ne_count dmB ovlp k)) (dmB.getD k 0))
       else (dmA, dmB)) :=
  get_init_guess_lowdim_eq dimension natm nelec nkpts ovlp g1e gatom gminao key hd

/-- Witness for C8 at a one-k-point input where the check passes. -/
theorem get_init_guess_lowdim_rescale_witness :
    get_init_guess 1 1 ((0, 0) : ℚ × ℚ) 1 [(0 : Matrix (Fin 1) (Fin 1) CQ)]
        ((0, 0) : Matrix (Fin 1) (Fin 1) CQ × Matrix (Fin 1) (Fin 1) CQ) (0, 0) (0, 0)
        InitGuessKey.minao =
      (let dmA := (scaled_replica 1
          (select_guess 1 InitGuessKey.minao ((0, 0) :
            Matrix (Fin 1) (Fin 1) CQ × Matrix (Fin 1) (Fin 1) CQ) (0, 0) (0, 0))).1
       let dmB := (scaled_replica 1
          (select_guess 1 InitGuessKey.minao ((0, 0) :
            Matrix (Fin 1) (Fin 1) CQ × Matrix (Fin 1) (Fin 1) CQ) (0, 0) (0, 0))).2
       if ∃ k ∈ List.range 1,
           CQ.absGt (ne_count dmA [(0 : Matrix (Fin 1) (Fin 1) CQ)] k - CQ.ofQ (0 : ℚ))
             (1 / 10 ^ 7) ∨
           CQ.absGt (ne_count dmB [(0 : Matrix (Fin 1) (Fin 1) CQ)] k - CQ.ofQ (0 : ℚ))
             (1 / 10 ^ 7) then
         ((List.range 1).map fun k =>
            mscale (CQ.div (CQ.ofQ (0 : ℚ)) (ne_count dmA [(0 : Matrix (Fin 1) (Fin 1) CQ)] k))
              (dmA.getD k 0),
          (List.range 1).map fun k =>
            mscale (CQ.div (CQ.ofQ (0 : ℚ)) (ne_count dmB [(0 : Matrix (Fin 1) (Fin 1) CQ)] k))
              (dmB.getD k 0))
       else (dmA, dmB)) :=
  get_init_guess_lowdim_rescale 1 1 (0, 0) 1 [(0 : Matrix (Fin 1) (Fin 1) CQ)]
    (0, 0) (0, 0) (0, 0) InitGuessKey.minao (by norm_num)

/-- C7 (amended): when the cell is 3-dimensional, or the low-dimensional
electron-count check passes, `get_init_guess` returns the selected
k-point-independent guess pair replicated over all k-points with alpha
scaled by `1.01` and beta by `0.99`. -/
theorem get_init_guess_scaled_replica (dimension natm : ℕ) (nelec : ℚ × ℚ) (nkpts : ℕ)
    (ovlp : List (Matrix (Fin nao) (Fin nao) CQ))
    (g1e gatom gminao : Matrix (Fin nao) (Fin nao) CQ × Matrix (Fin nao) (Fin nao) CQ)
    (key : InitGuessKey)
    (h : 3 ≤ dimension ∨ ∀ k ∈ List.range nkpts,
      ¬ CQ.absGt (ne_count (scaled_replica nkpts
          (select_guess natm key g1e gatom gminao)).1 ovlp k - CQ.ofQ nelec.1) (1 / 10 ^ 7) ∧
      ¬ CQ.absGt (ne_count (scaled_replica nkpts
          (select_guess natm key g1e gatom gminao)).2 ovlp k - CQ.ofQ nelec.2) (1 / 10 ^ 7)) :
    get_init_guess dimension natm nelec nkpts ovlp g1e gatom gminao key =
      scaled_replica nkpts (select_guess natm key g1e gatom gminao) := by
  simp only [scaled_replica] at h ⊢
  simp only [get_init_guess]
  rcases h with h | h
  · rw [if_neg (by omega)]
  · by_cases hd : dimension < 3
    · have hng : ¬ ∃ k ∈ List.range nkpts,
          CQ.absGt (ne_count (List.replicate nkpts (mscale (CQ.ofQ (101 / 100))
            (select_guess natm key g1e gatom gminao).1)) ovlp k - CQ.ofQ nelec.1)
            (1 / 10 ^ 7) ∨
          CQ.absGt (ne_count (List.replicate nkpts (mscale (CQ.ofQ (99 / 100))
            (select_guess natm key g1e gatom gminao).2)) ovlp k - CQ.ofQ nelec.2)
            (1 / 10 ^ 7) := by
        rintro ⟨k, hk, hor⟩
        rcases hor with ha | hb
        · exact (h k hk).1 ha
        · exact (h k hk).2 hb
      rw [if_pos hd, if_neg hng]
    · rw [if_neg hd]

/-- Witness for C7 (amended) at a 3-dimensional cell. -/
theorem get_init_guess_scaled_replica_witness :
    get_init_guess 3 1 ((1, 1) : ℚ × ℚ) 1 [cxOne] (cxOne, cxOne) (cxOne, cxOne)
        (cxOne, cxOne) InitGuessKey.atom =
      scaled_replica 1 (select_guess 1 InitGuessKey.atom (cxOne, cxOne) (cxOne, cxOne)
        (cxOne, cxOne)) :=
  get_init_guess_scaled_replica 3 1 (1, 1) 1 [cxOne] (cxOne, cxOne) (cxOne, cxOne)
    (cxOne, cxOne) InitGuessKey.atom (Or.inl (by norm_num))

end C7C8

/-- `1×1` matrix with the single entry `2`. -/
def cxTwo : Matrix (Fin 1) (Fin 1) CQ := Matrix.of fun _ _ => ⟨2, 0⟩

/-- Counterexample to C7 as stated: for a 1-dimensional cell with
`nelec = (1, 1)`, unit overlap and minao guess `[[2]]` per spin, the
electron-count check fires (`ne_alpha = 2.02`) and the returned density is
the rescaled one, not the `1.01 / 0.99`-scaled replica the claim
describes. -/
theorem get_init_guess_rescale_changes_guess :
    get_init_guess 1 1 ((1, 1) : ℚ × ℚ) 1 [cxOne] (cxTwo, cxTwo) (cxTwo, cxTwo)
        (cxTwo, cxTwo) InitGuessKey.minao ≠
      scaled_replica 1 (select_guess 1 InitGuessKey.minao (cxTwo, cxTwo) (cxTwo, cxTwo)
        (cxTwo, cxTwo)) := by
  have hsel : select_guess 1 InitGuessKey.minao
      ((cxTwo, cxTwo) : Matrix (Fin 1) (Fin 1) CQ × Matrix (Fin 1) (Fin 1) CQ)
      (cxTwo, cxTwo) (cxTwo, cxTwo) = (cxTwo, cxTwo) := by
    simp [select_guess]
  have hdmA : (scaled_replica 1 ((cxTwo, cxTwo) :
      Matrix (Fin 1) (Fin 1) CQ × Matrix (Fin 1) (Fin 1) CQ)).1 =
      [mscale (CQ.ofQ (101 / 100)) cxTwo] := rfl
  have hne : ne_count [mscale (CQ.ofQ (101 / 100)) cxTwo] [cxOne] 0 = CQ.ofQ (101 / 50) := by
    apply CQ.ext_cq <;>
      simp [ne_count, einsum_ij_ji, mscale, cxTwo, cxOne, CQ.ofQ, Fin.sum_univ_one] <;>
      norm_num
  rw [get_init_guess_lowdim_eq 1 1 (1, 1) 1 [cxOne] (cxTwo, cxTwo) (cxTwo, cxTwo)
    (cxTwo, cxTwo) InitGuessKey.minao (by norm_num)]
  simp only [hsel, hdmA]
  have htrig : ∃ k ∈ List.range 1,
      CQ.absGt (ne_count [mscale (CQ.ofQ (101 / 100)) cxTwo] [cxOne] k - CQ.ofQ (1 : ℚ))
        (1 / 10 ^ 7) ∨
      CQ.absGt (ne_count (scaled_replica 1 ((cxTwo, cxTwo) :
          Matrix (Fin 1) (Fin 1) CQ × Matrix (Fin 1) (Fin 1) CQ)).2 [cxOne] k -
        CQ.ofQ (1 : ℚ)) (1 / 10 ^ 7) := by
    refine ⟨0, by simp, Or.inl ?_⟩
    rw [hne]
    simp [CQ.absGt, CQ.ofQ]
    norm_num
  rw [if_pos htrig]
  intro h
  have hentry := congrArg (fun p => ((p.1.getD 0 (0 : Matrix (Fin 1) (Fin 1) CQ)) 0 0).re) h
  have hr1 : List.range 1 = [0] := by
    simp [List.range_succ]
  rw [hr1] at hentry
  simp only [List.map_cons, List.map_nil, List.getD_cons_zero, hne, scaled_replica,
    List.replicate_one] at hentry
  simp [mscale, CQ.div, CQ.ofQ, cxTwo] at hentry
  norm_num at hentry

/-! ## C9: gamma-point real forcing in `init_guess_by_chkfile` -/

section C9

variable {nao nmo : ℕ}

theorem mreal_im_zero (M : Matrix (Fin nao) (Fin nao) CQ) (i j : Fin nao) :
    ((mreal M) i j).im = 0 := rfl

theorem getD_map_mreal_im_zero (l : List (Matrix (Fin nao) (Fin nao) CQ)) (k : ℕ)
    (i j : Fin nao) : (((l.map mreal).getD k 0) i j).im = 0 := by
  rcases Nat.lt_or_ge k l.length with hk | hk
  · rw [List.getD_eq_getElem _ _ (by simpa using hk), List.getElem_map]
    exact mreal_im_zero _ i j
  · rw [List.getD_eq_default _ _ (by simpa using hk)]
    simp

/-- C9 (amended): `init_guess_by_chkfile` forces the density to be purely
real exactly when every component of every target k-point is within the
`np.allclose` absolute tolerance `1e-8` of zero; otherwise the density is
returned unmodified. -/
theorem init_guess_by_chkfile_gamma_force (project : Bool)
    (proj : Matrix (Fin nao) (Fin nmo) CQ → Option V3 → Matrix (Fin nao) (Fin nmo) CQ)
    (chk_kpts kpts : List V3)
    (mo : List (Matrix (Fin nao) (Fin nmo) CQ) × List (Matrix (Fin nao) (Fin nmo) CQ))
    (mo_occ : List (Fin nmo → ℚ) × List (Fin nmo → ℚ)) :
    (allclose0 kpts →
      init_guess_by_chkfile project proj chk_kpts kpts mo mo_occ =
        ((chk_dm project proj chk_kpts kpts mo mo_occ).1.map mreal,
         (chk_dm project proj chk_kpts kpts mo mo_occ).2.map mreal)) ∧
    (allclose0 kpts → ∀ (k : ℕ) (i j : Fin nao),
      (((init_guess_by_chkfile project proj chk_kpts kpts mo mo_occ).1.getD k 0) i j).im = 0 ∧
      (((init_guess_by_chkfile project proj chk_kpts kpts mo mo_occ).2.getD k 0) i j).im = 0) ∧
    (¬ allclose0 kpts →
      init_guess_by_chkfile project proj chk_kpts kpts mo mo_occ =
        chk_dm project proj chk_kpts kpts mo mo_occ) := by
  have hpos : allclose0 kpts →
      init_guess_by_chkfile project proj chk_kpts kpts mo mo_occ =
        ((chk_dm project proj chk_kpts kpts mo mo_occ).1.map mreal,
         (chk_dm project proj chk_kpts kpts mo mo_occ).2.map mreal) := by
    intro h
    unfold init_guess_by_chkfile gammaForce
    rw [if_pos h]
  refine ⟨hpos, ?_, ?_⟩
  · intro h k i j
    rw [hpos h]
    exact ⟨getD_map_mreal_im_zero _ k i j, getD_map_mreal_im_zero _ k i j⟩
  · intro h
    unfold init_guess_by_chkfile gammaForce
    rw [if_neg h]

end C9

/-- Column vector `(1, i)` as a `2×1` coefficient matrix. -/
def colMW : Matrix (Fin 2) (Fin 1) CQ := Matrix.of fun i _ => if i = 0 then ⟨1, 0⟩ else ⟨0, 1⟩

/-- Target mesh with one nonzero (but `allclose`-to-zero) k-point. -/
def kptsW9 : List V3 := [((1 / 10 ^ 9 : ℚ), 0, 0)]

/-- Checkpoint mesh at the origin. -/
def chkW : List V3 := [((0 : ℚ), 0, 0)]

/-- Identity projector (stands for the external `project_mo_nr2nr`). -/
def projId : Matrix (Fin 2) (Fin 1) CQ → Option V3 → Matrix (Fin 2) (Fin 1) CQ := fun m _ => m

/-- Counterexample to C9 as stated: the target k-point `(1e-9, 0, 0)` is
nonzero, yet `init_guess_by_chkfile` does not leave the density unmodified:
the complex entry at `(0, 1)` of the unforced density has imaginary part
`-1`, and the returned density has imaginary part `0` there, because the
code tests `np.allclose(kpts, 0)` (tolerance `1e-8`), not exact zero. -/
theorem init_guess_by_chkfile_gamma_tolerance :
    kptsW9.getD 0 ((0 : ℚ), 0, 0) ≠ ((0 : ℚ), (0 : ℚ), (0 : ℚ)) ∧
    init_guess_by_chkfile false projId chkW kptsW9 ([colMW], [colMW])
        ([fun _ => (1 : ℚ)], [fun _ => (0 : ℚ)]) ≠
      chk_dm false projId chkW kptsW9 ([colMW], [colMW])
        ([fun _ => (1 : ℚ)], [fun _ => (0 : ℚ)]) := by
  constructor
  · intro h
    have h1 := congrArg Prod.fst h
    simp [kptsW9] at h1
  · have hc0 : allclose0 kptsW9 := by
      intro a ha
      simp [kptsW9] at ha
      subst ha
      norm_num [abs_le]
    have hcond : kptsW9.length = chkW.length ∧ allcloseKpts kptsW9 chkW := by
      refine ⟨rfl, ?_⟩
      intro p hp
      simp [kptsW9, chkW] at hp
      subst hp
      simp only [close3]
      norm_num [abs_le]
    have hfast : chk_dm false projId chkW kptsW9 ([colMW], [colMW])
        ([fun _ => (1 : ℚ)], [fun _ => (0 : ℚ)]) =
        make_rdm1 ([colMW], [colMW]) ([fun _ => (1 : ℚ)], [fun _ => (0 : ℚ)]) := by
      unfold chk_dm
      rw [if_pos hcond]
      rfl
    intro h
    have hg : init_guess_by_chkfile false projId chkW kptsW9 ([colMW], [colMW])
        ([fun _ => (1 : ℚ)], [fun _ => (0 : ℚ)]) =
        ((chk_dm false projId chkW kptsW9 ([colMW], [colMW])
            ([fun _ => (1 : ℚ)], [fun _ => (0 : ℚ)])).1.map mreal,
         (chk_dm false projId chkW kptsW9 ([colMW], [colMW])
            ([fun _ => (1 : ℚ)], [fun _ => (0 : ℚ)])).2.map mreal) := by
      unfold init_guess_by_chkfile gammaForce
      rw [if_pos hc0]
    have hentry := congrArg (fun p => ((p.1.getD 0 (0 : Matrix (Fin 2) (Fin 2) CQ)) 0 1).im) h
    rw [hg, hfast] at hentry
    dsimp only [] at hentry
    have hdmval : ((make_rdm1 ([colMW], [colMW]) ([fun _ => (1 : ℚ)], [fun _ => (0 : ℚ)])).1.getD 0
        (0 : Matrix (Fin 2) (Fin 2) CQ) 0 1).im = -1 := by
      have hr1 : List.range 1 = [0] := by simp [List.range_succ]
      simp [make_rdm1, make_dm, make_dm_k, colScale, colMW, CQ.ofQ, hr1,
        Matrix.mul_apply, Fin.sum_univ_one, Matrix.conjTranspose_apply]
    rw [hdmval] at hentry
    have hzero : (((make_rdm1 ([colMW], [colMW])
        ([fun _ => (1 : ℚ)], [fun _ => (0 : ℚ)])).1.map mreal).getD 0
        (0 : Matrix (Fin 2) (Fin 2) CQ) 0 1).im = 0 :=
      getD_map_mreal_im_zero _ 0 0 1
    rw [hzero] at hentry
    norm_num at hentry

/-- Witness for C9 (amended) at the origin-only mesh: the guess is
real-forced. -/
theorem init_guess_by_chkfile_gamma_force_witness :
    init_guess_by_chkfile false projId chkW chkW ([colMW], [colMW])
        ([fun _ => (1 : ℚ)], [fun _ => (0 : ℚ)]) =
      ((chk_dm false projId chkW chkW ([colMW], [colMW])
          ([fun _ => (1 : ℚ)], [fun _ => (0 : ℚ)])).1.map mreal,
       (chk_dm false projId chkW chkW ([colMW], [colMW])
          ([fun _ => (1 : ℚ)], [fun _ => (0 : ℚ)])).2.map mreal) :=
  (init_guess_by_chkfile_gamma_force false projId chkW chkW ([colMW], [colMW])
      ([fun _ => (1 : ℚ)], [fun _ => (0 : ℚ)])).1
    (by
      intro a ha
      simp [chkW] at ha
      subst ha
      norm_num [abs_le])

/-! ## C10: nearest-checkpoint matching -/

theorem argminIdx_cons_cons (x y : ℚ) (ys : List ℚ) :
    argminIdx (x :: y :: ys) =
      if x ≤ (y :: ys).getD (argminIdx (y :: ys)) 0 then 0 else argminIdx (y :: ys) + 1 := rfl

theorem argminIdx_lt_length : ∀ l : List ℚ, l ≠ [] → argminIdx l < l.length
  | [], h => absurd rfl h
  | [_], _ => by simp [argminIdx]
  | x :: y :: ys, _ => by
    have ih := argminIdx_lt_length (y :: ys) (by simp)
    rw [argminIdx_cons_cons]
    split
    · simp
    · simpa using Nat.succ_lt_succ ih

theorem argminIdx_le : ∀ (l : List ℚ) (j : ℕ), j < l.length →
    l.getD (argminIdx l) 0 ≤ l.getD j 0
  | [], j, hj => by simp at hj
  | [x], j, hj => by
    have hj0 : j = 0 := by simpa using Nat.lt_one_iff.mp (by simpa using hj)
    subst hj0
    simp [argminIdx]
  | x :: y :: ys, j, hj => by
    have ih := fun j hj => argminIdx_le (y :: ys) j hj
    rw [argminIdx_cons_cons]
    split
    · rename_i hx
      match j, hj with
      | 0, _ => simp
      | j + 1, hj =>
        have h := ih j (by simpa using hj)
        have hxj : x ≤ (y :: ys).getD j 0 := le_trans hx h
        simpa using hxj
    · rename_i hx
      have hlt : (y :: ys).getD (argminIdx (y :: ys)) 0 < x := lt_of_not_le hx
      match j, hj with
      | 0, _ =>
        simpa using le_of_lt hlt
      | j + 1, hj =>
        have h := ih j (by simpa using hj)
        simpa using h

theorem getD_map_dist2 (l : List V3) (kpt : V3) (i : ℕ) (hi : i < l.length) :
    (l.map fun ck => dist2 ck kpt).getD i 0 = dist2 (l.getD i ((0 : ℚ), 0, 0)) kpt := by
  rw [List.getD_eq_getElem _ _ (by simpa using hi), List.getElem_map,
    List.getD_eq_getElem _ _ hi]

/-- `nearestIdx` picks an index of minimal Euclidean distance. -/
theorem nearestIdx_min (chk_kpts : List V3) (kpt : V3) (j : ℕ) (hj : j < chk_kpts.length) :
    dist2 (chk_kpts.getD (nearestIdx chk_kpts kpt) ((0 : ℚ), 0, 0)) kpt ≤
      dist2 (chk_kpts.getD j ((0 : ℚ), 0, 0)) kpt := by
  have hne : chk_kpts ≠ [] := by
    intro h
    rw [h] at hj
    simp at hj
  have hlt : argminIdx (chk_kpts.map fun ck => dist2 ck kpt) < chk_kpts.length := by
    have := argminIdx_lt_length (chk_kpts.map fun ck => dist2 ck kpt) (by simpa using hne)
    simpa using this
  have h := argminIdx_le (chk_kpts.map fun ck => dist2 ck kpt) j (by simpa using hj)
  rw [getD_map_dist2 _ _ _ hlt, getD_map_dist2 _ _ _ hj] at h
  exact h

section C10

variable {nao nmo : ℕ}

/-- C10 (amended): when the target mesh differs in shape from the
checkpoint mesh, or its values are not all `np.allclose` to it,
`init_guess_by_chkfile` matches each target k-point to a
minimal-Euclidean-distance checkpoint k-point, projects the alpha and beta
orbitals of that checkpoint k-point with the displacement
`chk_kpt - target_kpt`, copies that k-point's occupations unchanged, and
builds the density with `make_rdm1` (followed by the gamma-point real
forcing of lines 264-267). -/
theorem init_guess_by_chkfile_nearest (project : Bool)
    (proj : Matrix (Fin nao) (Fin nmo) CQ → Option V3 → Matrix (Fin nao) (Fin nmo) CQ)
    (chk_kpts kpts : List V3)
    (mo : List (Matrix (Fin nao) (Fin nmo) CQ) × List (Matrix (Fin nao) (Fin nmo) CQ))
    (mo_occ : List (Fin nmo → ℚ) × List (Fin nmo → ℚ))
    (h : ¬ (kpts.length = chk_kpts.length ∧ allcloseKpts kpts chk_kpts)) :
    init_guess_by_chkfile project proj chk_kpts kpts mo mo_occ =
      gammaForce kpts (make_rdm1
        ((List.range kpts.length).map fun i =>
           fproj project proj (mo.1.getD (nearestIdx chk_kpts (kpts.getD i ((0 : ℚ), 0, 0))) 0)
             (some (v3sub
               (chk_kpts.getD (nearestIdx chk_kpts (kpts.getD i ((0 : ℚ), 0, 0))) ((0 : ℚ), 0, 0))
               (kpts.getD i ((0 : ℚ), 0, 0)))),
         (List.range kpts.length).map fun i =>
           fproj project proj (mo.2.getD (nearestIdx chk_kpts (kpts.getD i ((0 : ℚ), 0, 0))) 0)
             (some (v3sub
               (chk_kpts.getD (nearestIdx chk_kpts (kpts.getD i ((0 : ℚ), 0, 0))) ((0 : ℚ), 0, 0))
               (kpts.getD i ((0 : ℚ), 0, 0)))))
        ((List.range kpts.length).map fun i =>
           mo_occ.1.getD (nearestIdx chk_kpts (kpts.getD i ((0 : ℚ), 0, 0))) fun _ => 0,
         (List.range kpts.length).map fun i =>
           mo_occ.2.getD (nearestIdx chk_kpts (kpts.getD i ((0 : ℚ), 0, 0))) fun _ => 0)) ∧
    (∀ i < kpts.length, ∀ j < chk_kpts.length,
      dist2 (chk_kpts.getD (nearestIdx chk_kpts (kpts.getD i ((0 : ℚ), 0, 0))) ((0 : ℚ), 0, 0))
          (kpts.getD i ((0 : ℚ), 0, 0)) ≤
        dist2 (chk_kpts.getD j ((0 : ℚ), 0, 0)) (kpts.getD i ((0 : ℚ), 0, 0))) := by
  constructor
  · unfold init_guess_by_chkfile chk_dm
    rw [if_neg h]
  · intro i _ j hj
    exact nearestIdx_min chk_kpts (kpts.getD i ((0 : ℚ), 0, 0)) j hj

end C10

/-- Checkpoint mesh with two k-points for the C10 witness. -/
def chkW2 : List V3 := [((0 : ℚ), 0, 0), ((1 : ℚ), 0, 0)]

/-- Target mesh with one k-point for the C10 witness. -/
def kptsW10 : List V3 := [((1 : ℚ), 0, 0)]

/-- Identity projector on `1×1` coefficient matrices. -/
def projId1 : Matrix (Fin 1) (Fin 1) CQ → Option V3 → Matrix (Fin 1) (Fin 1) CQ := fun m _ => m

/-- Witness for C10 (amended): one target k-point against a two-point
checkpoint mesh (shapes differ). -/
theorem init_guess_by_chkfile_nearest_witness :
    init_guess_by_chkfile false projId1 chkW2 kptsW10 ([cxOne, cxTwo], [cxOne, cxTwo])
        ([fun _ => (1 : ℚ), fun _ => (1 : ℚ)], [fun _ => (1 : ℚ), fun _ => (1 : ℚ)]) =
      gammaForce kptsW10 (make_rdm1
        ((List.range kptsW10.length).map fun i =>
           fproj false projId1
             (([cxOne, cxTwo] : List (Matrix (Fin 1) (Fin 1) CQ)).getD
               (nearestIdx chkW2 (kptsW10.getD i ((0 : ℚ), 0, 0))) 0)
             (some (v3sub
               (chkW2.getD (nearestIdx chkW2 (kptsW10.getD i ((0 : ℚ), 0, 0))) ((0 : ℚ), 0, 0))
               (kptsW10.getD i ((0 : ℚ), 0, 0)))),
         (List.range kptsW10.length).map fun i =>
           fproj false projId1
             (([cxOne, cxTwo] : List (Matrix (Fin 1) (Fin 1) CQ)).getD
               (nearestIdx chkW2 (kptsW10.getD i ((0 : ℚ), 0, 0))) 0)
             (some (v3sub
               (chkW2.getD (nearestIdx chkW2 (kptsW10.getD i ((0 : ℚ), 0, 0))) ((0 : ℚ), 0, 0))
               (kptsW10.getD i ((0 : ℚ), 0, 0)))))
        ((List.range kptsW10.length).map fun i =>
           ([fun _ => (1 : ℚ), fun _ => (1 : ℚ)] : List (Fin 1 → ℚ)).getD
             (nearestIdx chkW2 (kptsW10.getD i ((0 : ℚ), 0, 0))) fun _ => 0,
         (List.range kptsW10.length).map fun i =>
           ([fun _ => (1 : ℚ), fun _ => (1 : ℚ)] : List (Fin 1 → ℚ)).getD
             (nearestIdx chkW2 (kptsW10.getD i ((0 : ℚ), 0, 0))) fun _ => 0)) ∧
    (∀ i < kptsW10.length, ∀ j < chkW2.length,
      dist2 (chkW2.getD (nearestIdx chkW2 (kptsW10.getD i ((0 : ℚ), 0, 0))) ((0 : ℚ), 0, 0))
          (kptsW10.getD i ((0 : ℚ), 0, 0)) ≤
        dist2 (chkW2.getD j ((0 : ℚ), 0, 0)) (kptsW10.getD i ((0 : ℚ), 0, 0))) :=
  init_guess_by_chkfile_nearest false projId1 chkW2 kptsW10 ([cxOne, cxTwo], [cxOne, cxTwo])
    ([fun _ => (1 : ℚ), fun _ => (1 : ℚ)], [fun _ => (1 : ℚ), fun _ => (1 : ℚ)])
    (by decide)

/-- Target mesh with one k-point that differs from the origin but is within
the `np.allclose` tolerance. -/
def kptsE : List V3 := [((1 / 10 ^ 12 : ℚ), 0, 0)]

/-- Projector that doubles the orbitals when given a displacement vector
(distinguishing the fast path, which passes `None`). -/
def projW : Matrix (Fin 1) (Fin 1) CQ → Option V3 → Matrix (Fin 1) (Fin 1) CQ :=
  fun m dk =>
    match dk with
    | none => m
    | some _ => mscale ⟨2, 0⟩ m

/-- Counterexample to C10 as stated: the target mesh `[(1e-12, 0, 0)]`
differs in values from the checkpoint mesh `[(0, 0, 0)]`, yet
`init_guess_by_chkfile` takes the `np.allclose` fast path and does not
build the nearest-neighbor displacement-projected density the claim
describes (the two constructions give densities `[[1]]` and `[[4]]`). -/
theorem init_guess_by_chkfile_allclose_fast_path :
    kptsE ≠ chkW ∧
    init_guess_by_chkfile true projW chkW kptsE ([cxOne], [cxOne])
        ([fun _ => (1 : ℚ)], [fun _ => (1 : ℚ)]) ≠
      gammaForce kptsE (make_rdm1
        ((List.range kptsE.length).map fun i =>
           fproj true projW
             (([cxOne] : List (Matrix (Fin 1) (Fin 1) CQ)).getD
               (nearestIdx chkW (kptsE.getD i ((0 : ℚ), 0, 0))) 0)
             (some (v3sub
               (chkW.getD (nearestIdx chkW (kptsE.getD i ((0 : ℚ), 0, 0))) ((0 : ℚ), 0, 0))
               (kptsE.getD i ((0 : ℚ), 0, 0)))),
         (List.range kptsE.length).map fun i =>
           fproj true projW
             (([cxOne] : List (Matrix (Fin 1) (Fin 1) CQ)).getD
               (nearestIdx chkW (kptsE.getD i ((0 : ℚ), 0, 0))) 0)
             (some (v3sub
               (chkW.getD (nearestIdx chkW (kptsE.getD i ((0 : ℚ), 0, 0))) ((0 : ℚ), 0, 0))
               (kptsE.getD i ((0 : ℚ), 0, 0)))))
        ((List.range kptsE.length).map fun i =>
           ([fun _ => (1 : ℚ)] : List (Fin 1 → ℚ)).getD
             (nearestIdx chkW (kptsE.getD i ((0 : ℚ), 0, 0))) fun _ => 0,
         (List.range kptsE.length).map fun i =>
           ([fun _ => (1 : ℚ)] : List (Fin 1 → ℚ)).getD
             (nearestIdx chkW (kptsE.getD i ((0 : ℚ), 0, 0))) fun _ => 0)) := by
  have hr1 : List.range 1 = [0] := by simp [List.range_succ]
  constructor
  · intro h
    have h1 := congrArg (fun l => (l.getD 0 ((0 : ℚ), 0, 0)).1) h
    simp [kptsE, chkW] at h1
  · have hc0 : allclose0 kptsE := by
      intro a ha
      simp [kptsE] at ha
      subst ha
      norm_num [abs_le]
    have hcond : kptsE.length = chkW.length ∧ allcloseKpts kptsE chkW := by
      refine ⟨rfl, ?_⟩
      intro p hp
      simp [kptsE, chkW] at hp
      subst hp
      simp only [close3]
      norm_num [abs_le]
    have hfast : init_guess_by_chkfile true projW chkW kptsE ([cxOne], [cxOne])
        ([fun _ => (1 : ℚ)], [fun _ => (1 : ℚ)]) =
        gammaForce kptsE (make_rdm1 ([cxOne], [cxOne])
          ([fun _ => (1 : ℚ)], [fun _ => (1 : ℚ)])) := by
      unfold init_guess_by_chkfile chk_dm
      rw [if_pos hcond]
      rfl
    have hgf : ∀ X : List (Matrix (Fin 1) (Fin 1) CQ) × List (Matrix (Fin 1) (Fin 1) CQ),
        gammaForce kptsE X = (X.1.map mreal, X.2.map mreal) := by
      intro X
      unfold gammaForce
      rw [if_pos hc0]
    intro h
    have hentry := congrArg (fun p => ((p.1.getD 0 (0 : Matrix (Fin 1) (Fin 1) CQ)) 0 0).re) h
    rw [hfast, hgf, hgf] at hentry
    dsimp only [] at hentry
    simp [make_rdm1, make_dm, make_dm_k, colScale, mreal, mscale, cxOne, projW, fproj,
      nearestIdx, argminIdx, chkW, kptsE, CQ.ofQ, Matrix.mul_apply, Fin.sum_univ_one,
      Matrix.conjTranspose_apply, Matrix.of_apply, List.getD_cons_zero, dist2, v3sub,
      List.range_succ] at hentry
    norm_num at hentry
